import Mathlib

/-!
Verification development for the coordinate-exchange optimal-design engine
in `src/optimal_splitk/doe.py`.

The source file is shallowly embedded: matrices (`np.array` 2-D) become lists
of rows over `ℚ` (the floating-point arithmetic of the source is modelled by
exact rationals), in-place numpy slice assignments become the explicit
surgery functions `writeSlice` / `setBlock` / `setRows`, and Python
exceptions become `Except` / `Option` results.  External collaborators that
the source imports from sibling modules (`encode_model`, `encode_design`,
`decode_design`, `initialize_single`, and the pluggable criterion class) are
parameters of the embedding, exactly as the specification declares them
external.  Out-of-range list reads are modelled with `getD` defaults; the
theorems' hypotheses keep all uses in range, matching the shapes numpy
enforces.
-/

set_option maxRecDepth 4000

namespace OptimalSplitK

/-- A real matrix (list of rows). -/
abbrev Mat := List (List ℚ)

/-- An integer (exponent) matrix, used for model specifications. -/
abbrev NMat := List (List ℕ)

/-! ### List surgery: numpy slice reads and writes -/

/-- Helper for `writeSlice`: walks the row with the current column index `c`,
replacing the entries of the column range `[col, col + coord.length)` by the
corresponding entries of `coord`. -/
def wsAux (col : ℕ) (coord : List ℚ) : ℕ → List ℚ → List ℚ
  | _, [] => []
  | c, v :: vs =>
    (if col ≤ c ∧ c < col + coord.length then coord.getD (c - col) v else v) ::
      wsAux col coord (c + 1) vs

/-- `row[col : col + coord.length] = coord`: numpy assignment of a coordinate
into the column slice of one run row. -/
def writeSlice (row : List ℚ) (col : ℕ) (coord : List ℚ) : List ℚ :=
  wsAux col coord 0 row

/-- `row[col : col + w]`: numpy column-slice read of one run row. -/
def getSlice (row : List ℚ) (col w : ℕ) : List ℚ :=
  (List.range w).map (fun k => row.getD (col + k) 0)

/-- Helper for `setBlock`, walking the matrix with the current row index. -/
def sbAux (rs n col : ℕ) (coord : List ℚ) : ℕ → Mat → Mat
  | _, [] => []
  | r, row :: rest =>
    (if rs ≤ r ∧ r < rs + n then writeSlice row col coord else row) ::
      sbAux rs n col coord (r + 1) rest

/-- `Y[rs : rs + n, col : col + coord.length] = coord`: numpy broadcast
assignment writing one coordinate row into every run of a block. -/
def setBlock (Y : Mat) (rs n col : ℕ) (coord : List ℚ) : Mat :=
  sbAux rs n col coord 0 Y

/-- `Y[rs : rs + n]`: the row-block of `n` contiguous runs starting at `rs`. -/
def getRows (Y : Mat) (rs n : ℕ) : Mat :=
  (List.range n).map (fun k => Y.getD (rs + k) [])

/-- Helper for `setRows`, walking the matrix with the current row index. -/
def srAux (rs : ℕ) (rows : Mat) : ℕ → Mat → Mat
  | _, [] => []
  | r, row :: rest =>
    (if rs ≤ r ∧ r < rs + rows.length then rows.getD (r - rs) row else row) ::
      srAux rs rows (r + 1) rest

/-- `X[rs : rs + rows.length] = rows`: numpy row-block assignment (used to
splice the accepted candidate's model-matrix rows into the running `X`). -/
def setRows (X : Mat) (rs : ℕ) (rows : Mat) : Mat :=
  srAux rs rows 0 X

/-! ### `x2fx` (doe.py lines 13-52): model-matrix expansion -/

/-- The value of one model term on one run row: the running product `p` over
the factors `j`, multiplied by `row[j]` when the exponent is `1`, by
`row[j] ^ e` when the exponent `e` is larger, and left alone when the
exponent is `0` (the loop body of `x2fx`). -/
def termValue (row : List ℚ) (term : List ℕ) : ℚ :=
  (List.range term.length).foldl
    (fun p j =>
      if term.getD j 0 ≠ 0 then
        if term.getD j 0 = 1 then p * row.getD j 0
        else p * row.getD j 0 ^ term.getD j 0
      else p)
    1

/-- `x2fx(Y, model)`: create the model matrix from the design matrix and the
MATLAB-style model specification; one column per model term.  The two call
sites of the source pass 2-D arrays (the whole design, or one run-block), so
the leading batch shape is embedded as the list of rows. -/
def x2fx (Y : Mat) (model : NMat) : Mat :=
  Y.map (fun row => model.map (fun term => termValue row term))

/-! ### `generate_coordinates` (doe.py lines 58-97) -/

/-- `a.size` of a numpy 2-D array: the total number of entries. -/
def npSize (a : Mat) : ℕ := (a.map List.length).sum

/-- The default argument `np.array([[]])` of `generate_coordinates`: one row
of width zero, whose `size` is `0` (the "no override supplied" sentinel). -/
def emptyCoords : Mat := [[]]

/-- `np.eye n` as a list of rows: row `i` carries a `1` in column `i`. -/
def eyeRows (n : ℕ) : Mat :=
  (List.range n).map (fun i => (List.range n).map (fun j => if j = i then (1 : ℚ) else 0))

/-- `generate_coordinates(cat_lvl, default)`: the candidate coordinates of
one factor.  An override of nonzero size is returned verbatim; otherwise a
continuous factor (`cat_lvl ≤ 1`) gets the three points `-1, 0, 1` and a
categorical factor with `L` levels gets the `(L-1) × (L-1)` identity followed
by one all-`-1` row. -/
def generate_coordinates (cat_lvl : ℕ) (default : Mat) : Mat :=
  if npSize default = 0 then
    if cat_lvl ≤ 1 then [[-1], [0], [1]]
    else eyeRows (cat_lvl - 1) ++ [List.replicate (cat_lvl - 1) (-1 : ℚ)]
  else default

/-! ### Derived block-structure quantities (doe.py lines 157-166) -/

/-- `np.cumprod`: running products of a list. -/
def cumprod (xs : List ℕ) : List ℕ := (xs.scanl (· * ·) 1).tail

/-- `betas = np.cumprod(np.concatenate((np.array([1]), plot_sizes)))`:
`betas[level]` is the number of contiguous runs sharing one coordinate draw
at that level (the block size, called `jmp` in the loop). -/
def betasOf (ps : List ℕ) : List ℕ := cumprod (1 :: ps)

/-- `alphas = np.cumprod(plot_sizes[::-1])[::-1]`: `alphas[level]` is the
number of independent blocks at that level. -/
def alphasOf (ps : List ℕ) : List ℕ := (cumprod ps.reverse).reverse

/-- The encoded column width of one factor `(level, cat_lvl)`: `cat_lvl - 1`
columns when categorical (`cat_lvl > 1`), one column when continuous. -/
def widthOf (f : ℕ × ℕ) : ℕ := if 1 < f.2 then f.2 - 1 else 1

/-- `col_start = np.concatenate((np.array([0]), np.cumsum(...)))`: exclusive
prefix sums of the factor widths. -/
def colStartOf (fs : List (ℕ × ℕ)) : List ℕ := (fs.map widthOf).scanl (· + ·) 0

/-! ### The optimality-criterion contract (doe.py `optim` parameter) -/

/-- The kinds of exception a criterion's `update` may raise: a numerical
(linear-algebra) failure, or any other error such as a contract violation by
a broken criterion implementation. -/
inductive UpdErr where
  | numerical
  | contract
deriving DecidableEq

/-- `np.linalg.LinAlgError`, raised by the optimizer's own linear algebra
(the sweep-end resynchronization, doe.py line 244). -/
inductive LinAlgErr where
  | singular
deriving DecidableEq

/-- The criterion's per-restart state.  The source requires it to expose the
resynchronizable fields `Minv` and `V` (doe.py line 244 assigns
`state.Minv[:]` from `state.V`); any further criterion-owned data is the
opaque `extra`. -/
structure CState (σ : Type) where
  Minv : Mat
  V : Mat
  extra : σ
deriving DecidableEq

/-- The pluggable optimality criterion (`optim` object): `preinit` builds
the draw-independent prestate, `init` the per-restart state, `update`
evaluates one candidate (it may fail, which models the Python call raising),
and `metric` scores the final design. -/
structure Optim (π σ : Type) where
  preinit : List ℕ → NMat × NMat → List (ℕ × ℕ) → List ℚ → π
  init : π → Mat → Mat → CState σ
  update : CState σ → Mat → Mat → ℕ → ℕ → Except UpdErr (Bool × CState σ)
  metric : CState σ → Mat → Mat → ℚ

/-- Whether an `update` call accepted the candidate: a raised exception
counts as a rejection (doe.py lines 219-223). -/
def acceptOf {σ : Type} : Except UpdErr (Bool × CState σ) → Bool
  | .ok (b, _) => b
  | .error _ => false

/-- A criterion whose `update` never accepts any candidate. -/
def NAcc {π σ : Type} (optim : Optim π σ) : Prop :=
  ∀ st X Xi l g, acceptOf (optim.update st X Xi l g) = false

/-! ### Exact linear algebra for the resynchronization step -/

/-- Dot product of two rows. -/
def dotQ (a b : List ℚ) : ℚ := (List.zipWith (· * ·) a b).sum

/-- Matrix transpose. -/
def transposeM (M : Mat) : Mat :=
  (List.range (M.headD []).length).map (fun j => M.map (fun row => row.getD j 0))

/-- Matrix product. -/
def matMul (A B : Mat) : Mat :=
  A.map (fun row =>
    (List.range (B.headD []).length).map (fun j => dotQ row (B.map (fun r => r.getD j 0))))

/-- Row `i` of the `n × n` identity. -/
def idRow (n i : ℕ) : List ℚ := (List.range n).map (fun j => if j = i then 1 else 0)

/-- Pad or truncate a row to length `n`. -/
def padTo (n : ℕ) (row : List ℚ) : List ℚ := (List.range n).map (fun j => row.getD j 0)

/-- Swap two rows of a matrix. -/
def swapRows (M : Mat) (a b : ℕ) : Mat :=
  M.enum.map (fun p => if p.1 = a then M.getD b [] else if p.1 = b then M.getD a [] else p.2)

/-- Replace row `c` by `norm` and subtract the `norm`-multiple clearing
column `c` from every other row (one Gauss-Jordan pivot step). -/
def elimOthers (M : Mat) (c : ℕ) (norm : List ℚ) : Mat :=
  M.enum.map (fun p =>
    if p.1 = c then norm
    else List.zipWith (fun x y => x - p.2.getD c 0 * y) p.2 norm)

/-- One Gauss-Jordan column: pick a pivot row at or below `c` with a nonzero
entry in column `c` (failing means the matrix is singular), normalize it and
eliminate the column from the other rows. -/
def gjStep (M : Mat) (c : ℕ) : Option Mat :=
  match M.enum.find? (fun p => decide (c ≤ p.1) && decide (p.2.getD c 0 ≠ 0)) with
  | none => none
  | some rp =>
    let piv := rp.2.getD c 0
    some (elimOthers (swapRows M c rp.1) c (rp.2.map (fun x => x / piv)))

/-- Run Gauss-Jordan steps over `k` consecutive columns starting at `c`. -/
def gjAux : ℕ → ℕ → Mat → Option Mat
  | _, 0, M => some M
  | c, k + 1, M =>
    match gjStep M c with
    | none => none
    | some M2 => gjAux (c + 1) k M2

/-- Exact matrix inversion via Gauss-Jordan elimination on the augmented
matrix; `none` exactly when the matrix is singular.  This models
`np.linalg.inv` / `np.linalg.solve` raising `LinAlgError` on singular input
(the floating-point rounding of the original is not modelled). -/
def gaussInv (M : Mat) : Option Mat :=
  let n := M.length
  (gjAux 0 n (M.enum.map (fun p => padTo n p.2 ++ idRow n p.1))).map
    (fun A => A.map (fun row => row.drop n))

/-- `state.Minv[:] = np.linalg.inv(X.T @ np.linalg.solve(state.V, X))`
(doe.py line 244): the sweep-end resynchronization of the criterion's
curvature/inverse term; `none` models a raised `LinAlgError`. -/
def resyncState {σ : Type} (st : CState σ) (X : Mat) : Option (CState σ) :=
  match gaussInv st.V with
  | none => none
  | some Vi =>
    match gaussInv (matMul (transposeM X) (matMul Vi X)) with
    | none => none
    | some M2 => some { st with Minv := M2 }

/-! ### `optimize` (doe.py lines 101-249): the coordinate-exchange loop -/

/-- The precomputed per-run context of `optimize`'s sweeps: the encoded
model, `betas`/`alphas`, the factor column starts and the per-factor
candidate coordinate sets. -/
structure OptCtx (π σ : Type) where
  model : NMat
  betas : List ℕ
  alphas : List ℕ
  col_start : List ℕ
  pcs : List Mat
  optim : Optim π σ

/-- Build the `OptCtx` exactly as `optimize`'s initialization does
(doe.py lines 157-172): `col_start` is computed from the factor widths when
not supplied, and the coordinate sets honor the optional overrides
(`zip(default_coords, factors)`). -/
def mkOptCtx {π σ : Type} (model : NMat) (plot_sizes : List ℕ) (factors : List (ℕ × ℕ))
    (optim : Optim π σ) (col_start : Option (List ℕ)) (default_coords : Option (List Mat)) :
    OptCtx π σ :=
  { model := model
    betas := betasOf plot_sizes
    alphas := alphasOf plot_sizes
    col_start := col_start.getD (colStartOf factors)
    pcs :=
      match default_coords with
      | some dcs => (dcs.zip factors).map (fun p => generate_coordinates p.2.2 p.1)
      | none => factors.map (fun f => generate_coordinates f.2 emptyCoords)
    optim := optim }

/-- The mutable state threaded through one sweep: the design `Y`, the model
matrix `X`, the criterion state and the `updated` flag. -/
structure SweepSt (σ : Type) where
  Y : Mat
  X : Mat
  st : CState σ
  updated : Bool
deriving DecidableEq

/-- The body of the candidate loop (doe.py lines 206-235) for one candidate
`new_coord` of the block starting at run `rs`: write the candidate into `Y`;
if it differs from the initial coordinate, rebuild the block's model-matrix
rows and call the criterion's `update` — a raised exception is caught and
treated as a rejection with the state unchanged; an accepted candidate
becomes the provisional best, is spliced into `X`, keeps the returned state
and raises the `updated` flag.  The second component of the accumulator is
the provisional best coordinate. -/
def candStep {π σ : Type} (ctx : OptCtx π σ) (rs jmp col level grp : ℕ)
    (init_coord : List ℚ) (acc : SweepSt σ × List ℚ) (new_coord : List ℚ) :
    SweepSt σ × List ℚ :=
  let s := acc.1
  let Y1 := setBlock s.Y rs jmp col new_coord
  if new_coord = init_coord then ({ s with Y := Y1 }, acc.2)
  else
    match ctx.optim.update s.st s.X (x2fx (getRows Y1 rs jmp) ctx.model) level grp with
    | .error _ => ({ s with Y := Y1 }, acc.2)
    | .ok (accept, st2) =>
      if accept then
        ({ Y := Y1, X := setRows s.X rs (x2fx (getRows Y1 rs jmp) ctx.model),
           st := st2, updated := true }, new_coord)
      else ({ s with Y := Y1, st := st2 }, acc.2)

/-- One block scan (doe.py lines 196-238): record the block's current
coordinate as the provisional best, fold the candidate loop over the
factor's coordinate set, then write the final provisional best back into the
block's columns. -/
def blockScan {π σ : Type} (ctx : OptCtx π σ) (jmp col level : ℕ) (pc : Mat)
    (s : SweepSt σ) (grp : ℕ) : SweepSt σ :=
  let rs := grp * jmp
  let ic := getSlice (s.Y.getD rs []) col (pc.headD []).length
  let r := pc.foldl (candStep ctx rs jmp col level grp ic) (s, ic)
  { r.1 with Y := setBlock r.1.Y rs jmp col r.2 }

/-- The per-factor loop body (doe.py lines 184-191): scan every run-group of
factor `p.2` (which is factor number `p.1`) at its stratification level. -/
def factorScan {π σ : Type} (ctx : OptCtx π σ) (s : SweepSt σ) (p : ℕ × (ℕ × ℕ)) : SweepSt σ :=
  (List.range (ctx.alphas.getD p.2.1 0)).foldl
    (blockScan ctx (ctx.betas.getD p.2.1 0) (ctx.col_start.getD p.1 0) p.2.1
      (ctx.pcs.getD p.1 []))
    s

/-- One full sweep over all factors (`for i, factor in enumerate(factors)`). -/
def sweep {π σ : Type} (ctx : OptCtx π σ) (fs : List (ℕ × ℕ)) (s : SweepSt σ) : SweepSt σ :=
  fs.enum.foldl (fun s2 p => factorScan ctx s2 p) s

/-- The iteration loop (doe.py lines 175-244): up to `max_it` sweeps; stop
early when a sweep performs no update, otherwise resynchronize the
criterion's inverse term (whose numerical failure propagates as a
`LinAlgErr`) and continue. -/
def optIter {π σ : Type} (ctx : OptCtx π σ) (fs : List (ℕ × ℕ)) :
    ℕ → Mat → Mat → CState σ → Except LinAlgErr (Mat × Mat × CState σ)
  | 0, Y, X, st => .ok (Y, X, st)
  | n + 1, Y, X, st =>
    let s := sweep ctx fs { Y := Y, X := X, st := st, updated := false }
    if s.updated then
      match resyncState s.st s.X with
      | none => .error .singular
      | some st2 => optIter ctx fs n s.Y s.X st2
    else .ok (s.Y, s.X, s.st)

/-- `optimize(Y, model, plot_sizes, factors, optim, prestate, max_it,
col_start, default_coords)`: build `X`, initialize the criterion state, run
the sweeps and return the final design with its metric.  Only the
optimizer's own linear algebra can make it fail. -/
def optimize {π σ : Type} (Y : Mat) (model : NMat) (plot_sizes : List ℕ)
    (factors : List (ℕ × ℕ)) (optim : Optim π σ) (prestate : π) (max_it : ℕ)
    (col_start : Option (List ℕ)) (default_coords : Option (List Mat)) :
    Except LinAlgErr (Mat × ℚ) :=
  let X := x2fx Y model
  let ctx := mkOptCtx model plot_sizes factors optim col_start default_coords
  match optIter ctx factors max_it Y X (optim.init prestate Y X) with
  | .error e => .error e
  | .ok (Y2, X2, st2) => .ok (Y2, optim.metric st2 Y2 X2)

/-! ### `doe` (doe.py lines 255-365): validation and the multi-start loop -/

/-- The structural failures of `doe`'s ratio handling (doe.py lines
319-326): `ratioConcat` is the error always raised by the misspelled
`np.concatenate(np.array([1]), ratios)` call on the one-shorter branch
(its arguments are passed positionally instead of as a tuple, so numpy
rejects them); `ratioSizeAssert` and `ratioFirstAssert` are the two
`assert` failures; `ratioIndex` is the `IndexError` of reading
`ratios[0]` from an empty array. -/
inductive DoeErr where
  | ratioConcat
  | ratioSizeAssert
  | ratioFirstAssert
  | ratioIndex
deriving DecidableEq

/-- The ratio normalization/validation block of `doe` (doe.py lines
319-326), in source order: `None` defaults to all-ones; a length one less
than `plot_sizes` reaches the broken `np.concatenate` call, which raises;
otherwise the length must match and the first entry must be `1`. -/
def initRatios (ratios : Option (List ℚ)) (plot_sizes : List ℕ) : Except DoeErr (List ℚ) :=
  match ratios with
  | none => .ok (List.replicate plot_sizes.length 1)
  | some r =>
    if r.length + 1 = plot_sizes.length then .error .ratioConcat
    else if r.length = plot_sizes.length then
      match r with
      | [] => .error .ratioIndex
      | r0 :: _ => if r0 = 1 then .ok r else .error .ratioFirstAssert
    else .error .ratioSizeAssert

/-- The external collaborators `doe` consumes, as declared in the
specification: model/design encoding and decoding, and the random
initializer (`initialize_single`), whose successive draws are indexed by a
counter (the template design and coordinate overrides it receives are
absorbed into the function). -/
structure DoeEnv (π σ : Type) where
  encodeModel : NMat → List (ℕ × ℕ) → NMat
  drawDesign : ℕ → Mat
  encodeDesign : Mat → List (ℕ × ℕ) → Mat
  decodeDesign : Mat → List (ℕ × ℕ) → Mat
  optim : Optim π σ

/-- Everything one restart attempt of `doe`'s while-loop depends on. -/
structure LoopCtx (π σ : Type) where
  env : DoeEnv π σ
  model_enc : NMat
  plot_sizes : List ℕ
  factors : List (ℕ × ℕ)
  prestate : π
  max_it : ℕ
  default_coords : Option (List Mat)
  n_tries : ℕ

/-- One restart attempt (doe.py lines 339-347): draw the `d`-th random
design, encode it and optimize it. -/
def attempt {π σ : Type} (c : LoopCtx π σ) (d : ℕ) : Except LinAlgErr (Mat × ℚ) :=
  optimize (c.env.encodeDesign (c.env.drawDesign d) c.factors) c.model_enc c.plot_sizes
    c.factors c.env.optim c.prestate c.max_it none c.default_coords

/-- The state of `doe`'s while-loop: the completed-restart counter `i`, the
draw counter, the recorded metrics (the source preallocates
`np.zeros(n_tries)` and writes slot `i`, which on the completed loop is the
same sequence), the running best, and the trace of `it_callback` arguments
(the callback is an effect; the embedding records its invocations). -/
structure LoopSt where
  i : ℕ
  draw : ℕ
  metrics : List ℚ
  best_metric : Option ℚ
  best_Y : Mat
  callbacks : List ℕ
deriving DecidableEq

/-- `metric > best_metric`, where `none` stands for the initial `-np.inf`. -/
def betterThan (m : ℚ) (b : Option ℚ) : Bool :=
  match b with
  | none => true
  | some b2 => decide (b2 < m)

/-- The body of a successful restart (doe.py lines 349-358): record the
metric in slot `i`, update the running best on strict improvement, count the
restart and invoke the callback with the new completed count. -/
def succStep (s : LoopSt) (Yo : Mat) (m : ℚ) : LoopSt :=
  { i := s.i + 1
    draw := s.draw + 1
    metrics := s.metrics ++ [m]
    best_metric := if betterThan m s.best_metric then some m else s.best_metric
    best_Y := if betterThan m s.best_metric then Yo else s.best_Y
    callbacks := s.callbacks ++ [s.i + 1] }

/-- `while i < n_tries` (doe.py lines 334-360), with explicit fuel: an
attempt raising `LinAlgError` is discarded (`except ... pass`) without
touching the loop state other than consuming a random draw; a successful
attempt runs `succStep`.  `none` means the fuel ran out before `n_tries`
restarts succeeded (the source would still be looping — the spec's known
unbounded-retry gap). -/
def doeLoop {π σ : Type} (c : LoopCtx π σ) : ℕ → LoopSt → Option LoopSt
  | 0, s => if s.i < c.n_tries then none else some s
  | f + 1, s =>
    if s.i < c.n_tries then
      match attempt c s.draw with
      | .error _ => doeLoop c f { s with draw := s.draw + 1 }
      | .ok (Yo, m) => doeLoop c f (succStep s Yo m)
    else some s

/-- The initial loop state (doe.py lines 308-317): zero counters, an empty
metric record, `best_metric = -inf` and the zero-filled template design as
the provisional best. -/
def initLoopSt (plot_sizes : List ℕ) (factors : List (ℕ × ℕ)) : LoopSt :=
  { i := 0
    draw := 0
    metrics := []
    best_metric := none
    best_Y := List.replicate plot_sizes.prod (List.replicate factors.length 0)
    callbacks := [] }

/-- `doe(model, plot_sizes, factors, n_tries, max_it, it_callback, optim,
default_coords, ratios)`: encode the model, validate/normalize the ratios
(any failure there aborts before the prestate and before any restart),
compute the prestate once, run the restart loop and return the decoded best
design, the metrics vector and the callback trace.  `.ok none` is the
fuel-exhaustion surrogate for the source's unbounded retry loop. -/
def doe {π σ : Type} (env : DoeEnv π σ) (model : NMat) (plot_sizes : List ℕ)
    (factors : List (ℕ × ℕ)) (n_tries max_it : ℕ) (default_coords : Option (List Mat))
    (ratios : Option (List ℚ)) (fuel : ℕ) :
    Except DoeErr (Option (Mat × List ℚ × List ℕ)) :=
  let model_enc := env.encodeModel model factors
  match initRatios ratios plot_sizes with
  | .error e => .error e
  | .ok rts =>
    let c : LoopCtx π σ :=
      { env := env, model_enc := model_enc, plot_sizes := plot_sizes, factors := factors
        prestate := env.optim.preinit plot_sizes (model, model_enc) factors rts
        max_it := max_it, default_coords := default_coords, n_tries := n_tries }
    match doeLoop c fuel (initLoopSt plot_sizes factors) with
    | none => .ok none
    | some s => .ok (some (env.decodeDesign s.best_Y factors, s.metrics, s.callbacks))

/-- The running maximum with strict improvement, matching `doe`'s
`best_metric` bookkeeping folded over the recorded metrics. -/
def listMax (l : List ℚ) : Option ℚ :=
  l.foldl (fun b m => if betterThan m b then some m else b) none

/-! ### Invariant vocabulary for the exchange loop -/

/-- The coordinate width of factor `i`: `possible_coords.shape[1]`. -/
def wOf {π σ : Type} (ctx : OptCtx π σ) (i : ℕ) : ℕ := ((ctx.pcs.getD i []).headD []).length

/-- The block size (`jmp`) of factor `i`. -/
def jmpOf {π σ : Type} (ctx : OptCtx π σ) (fs : List (ℕ × ℕ)) (i : ℕ) : ℕ :=
  ctx.betas.getD (fs.getD i (0, 0)).1 0

/-- The block count of factor `i`. -/
def alphaOf {π σ : Type} (ctx : OptCtx π σ) (fs : List (ℕ × ℕ)) (i : ℕ) : ℕ :=
  ctx.alphas.getD (fs.getD i (0, 0)).1 0

/-- The starting column of factor `i`. -/
def colOf {π σ : Type} (ctx : OptCtx π σ) (i : ℕ) : ℕ := ctx.col_start.getD i 0

/-- Validity of a design: every run's column slice of every factor is a
member of that factor's candidate coordinate set ("Y is always a valid point
in the product of per-factor CoordinateSets"). -/
def ValidY {π σ : Type} (ctx : OptCtx π σ) (fs : List (ℕ × ℕ)) (Y : Mat) : Prop :=
  ∀ i, i < fs.length → ∀ grp, grp < alphaOf ctx fs i → ∀ k, k < jmpOf ctx fs i →
    getSlice (Y.getD (grp * jmpOf ctx fs i + k) []) (colOf ctx i) (wOf ctx i) ∈
      ctx.pcs.getD i []

/-- Every coordinate of every factor's candidate set has that factor's
width (automatic for numpy arrays, whose rows cannot be ragged). -/
def pcUniform {π σ : Type} (ctx : OptCtx π σ) (fs : List (ℕ × ℕ)) : Prop :=
  ∀ i, i < fs.length → ∀ cd, cd ∈ ctx.pcs.getD i [] → cd.length = wOf ctx i

/-- Distinct factors occupy disjoint column ranges (automatic when
`col_start` is derived from the factor widths and the coordinate sets have
the factors' encoded widths). -/
def colsDisjoint {π σ : Type} (ctx : OptCtx π σ) (fs : List (ℕ × ℕ)) : Prop :=
  ∀ i, i < fs.length → ∀ j, j < fs.length → i ≠ j →
    colOf ctx i + wOf ctx i ≤ colOf ctx j ∨ colOf ctx j + wOf ctx j ≤ colOf ctx i

/-- Every row of `Y` is long enough to hold every factor's column range. -/
def ShapeOK {π σ : Type} (ctx : OptCtx π σ) (fs : List (ℕ × ℕ)) (Y : Mat) : Prop :=
  ∀ i, i < fs.length → ∀ r, r < Y.length → colOf ctx i + wOf ctx i ≤ (Y.getD r []).length

/-- Every block is constant: all its runs carry the same coordinate slice
(true of any design produced by the initializer, and the precondition for
the block's final write-back to restore the block exactly). -/
def blockConstant {π σ : Type} (ctx : OptCtx π σ) (fs : List (ℕ × ℕ)) (Y : Mat) : Prop :=
  ∀ i, i < fs.length → ∀ grp, grp < alphaOf ctx fs i → ∀ k, k < jmpOf ctx fs i →
    getSlice (Y.getD (grp * jmpOf ctx fs i + k) []) (colOf ctx i) (wOf ctx i) =
      getSlice (Y.getD (grp * jmpOf ctx fs i) []) (colOf ctx i) (wOf ctx i)

/-! ### Concrete instances used by witnesses and counterexamples -/

/-- A tiny split-plot structure: one level of size 2. -/
def witPs : List ℕ := [2]

/-- One continuous factor at level 0. -/
def witFs : List (ℕ × ℕ) := [(0, 1)]

/-- Intercept plus one main effect. -/
def witModel : NMat := [[0], [1]]

/-- A valid, block-constant starting design for `witPs`/`witFs`. -/
def witY : Mat := [[-1], [1]]

/-- A criterion that rejects every candidate. -/
def noAccOpt : Optim Unit Unit :=
  { preinit := fun _ _ _ _ => ()
    init := fun _ _ _ => { Minv := [[1]], V := [[1]], extra := () }
    update := fun st _ _ _ _ => .ok (false, st)
    metric := fun _ _ _ => 0 }

/-- A broken criterion whose `update` always raises a non-numerical
(contract-violation) error. -/
def errAccOpt : Optim Unit Unit :=
  { preinit := fun _ _ _ _ => ()
    init := fun _ _ _ => { Minv := [[1]], V := [[1]], extra := () }
    update := fun _ _ _ _ _ => .error .contract
    metric := fun _ _ _ => 0 }

/-- A criterion that accepts every candidate but carries a singular `V`, so
the sweep-end resynchronization raises `LinAlgError` and the whole restart
attempt fails numerically. -/
def accBadOpt : Optim Unit Unit :=
  { preinit := fun _ _ _ _ => ()
    init := fun _ _ _ => { Minv := [[1]], V := [[0]], extra := () }
    update := fun st _ _ _ _ => .ok (true, st)
    metric := fun _ _ _ => 0 }

/-- A trivial environment whose encoders are identities and whose random
draws always give `witY`. -/
def mkWitEnv (o : Optim Unit Unit) : DoeEnv Unit Unit :=
  { encodeModel := fun m _ => m
    drawDesign := fun _ => witY
    encodeDesign := fun Y _ => Y
    decodeDesign := fun Y _ => Y
    optim := o }

deriving instance DecidableEq for Except

/-- The sweep context over the broken (always-raising) criterion. -/
def witCtxErr : OptCtx Unit Unit := mkOptCtx witModel witPs witFs errAccOpt none none

/-- A concrete sweep state for the candidate-loop witnesses. -/
def witSweepSt : SweepSt Unit :=
  { Y := witY
    X := x2fx witY witModel
    st := errAccOpt.init () witY (x2fx witY witModel)
    updated := false }

/-- Loop context over the never-accepting criterion (every attempt
succeeds). -/
def witCtxOk : LoopCtx Unit Unit :=
  { env := mkWitEnv noAccOpt, model_enc := witModel, plot_sizes := witPs, factors := witFs
    prestate := (), max_it := 1, default_coords := none, n_tries := 1 }

/-- Loop context over the numerically failing criterion (every attempt
raises `LinAlgError`). -/
def witCtxBad : LoopCtx Unit Unit :=
  { env := mkWitEnv accBadOpt, model_enc := witModel, plot_sizes := witPs, factors := witFs
    prestate := (), max_it := 1, default_coords := none, n_tries := 1 }

/-! ## Generic list lemmas -/

/-- Extensionality for lists via `getD` at a fixed default. -/
theorem extGetD {α : Type _} (d : α) :
    ∀ (l1 l2 : List α), l1.length = l2.length →
      (∀ k, k < l1.length → l1.getD k d = l2.getD k d) → l1 = l2 := by
  intro l1
  induction l1 with
  | nil =>
    intro l2 hl _
    cases l2 with
    | nil => rfl
    | cons b t2 => simp at hl
  | cons a t ih =>
    intro l2 hl hp
    cases l2 with
    | nil => simp at hl
    | cons b t2 =>
      have h0 : a = b := by simpa using hp 0 (by simp)
      have ht : t = t2 := by
        apply ih
        · simpa using hl
        · intro k hk
          simpa using hp (k + 1) (by simpa using Nat.succ_lt_succ hk)
      rw [h0, ht]

/-- Fold invariance: a property preserved by every step holds of the fold. -/
theorem foldlRec {α β : Type _} (P : β → Prop) (f : β → α → β) :
    ∀ (l : List α) (b : β), P b → (∀ b2 a, a ∈ l → P b2 → P (f b2 a)) → P (l.foldl f b) := by
  intro l
  induction l with
  | nil => intro b hb _; simpa using hb
  | cons a t ih =>
    intro b hb hstep
    simp only [List.foldl_cons]
    exact ih (f b a) (hstep b a (by simp) hb)
      (fun b2 a2 ha2 hb2 => hstep b2 a2 (by simp [ha2]) hb2)

/-- The default of an in-range `getD` is irrelevant. -/
theorem getD_irrel {α : Type _} (l : List α) (k : ℕ) (a b : α) (h : k < l.length) :
    l.getD k a = l.getD k b := by
  rw [List.getD_eq_getElem l a h, List.getD_eq_getElem l b h]

/-- `getD` through `map`, for an in-range index. -/
theorem getD_map_lt {α β : Type _} (f : α → β) (l : List α) (i : ℕ) (da : α) (db : β)
    (h : i < l.length) : (l.map f).getD i db = f (l.getD i da) := by
  rw [List.getD_eq_getElem _ _ (by simpa using h), List.getElem_map, List.getD_eq_getElem _ _ h]

/-! ## Lemmas about the slice surgery -/

theorem wsAux_length (col : ℕ) (coord : List ℚ) :
    ∀ (row : List ℚ) (c : ℕ), (wsAux col coord c row).length = row.length := by
  intro row
  induction row with
  | nil => intro c; rfl
  | cons v vs ih => intro c; simp [wsAux, ih]

theorem wsAux_getD (col : ℕ) (coord : List ℚ) :
    ∀ (row : List ℚ) (c k : ℕ),
      (wsAux col coord c row).getD k 0 =
        if k < row.length ∧ col ≤ c + k ∧ c + k < col + coord.length then
          coord.getD (c + k - col) (row.getD k 0)
        else row.getD k 0 := by
  intro row
  induction row with
  | nil => intro c k; simp [wsAux]
  | cons v vs ih =>
    intro c k
    cases k with
    | zero => simp [wsAux]
    | succ k =>
      simp only [wsAux, List.getD_cons_succ]
      rw [ih (c + 1) k]
      have h1 : c + 1 + k = c + (k + 1) := by omega
      rw [h1]
      simp [Nat.succ_lt_succ_iff]

theorem writeSlice_length (row : List ℚ) (col : ℕ) (coord : List ℚ) :
    (writeSlice row col coord).length = row.length := wsAux_length col coord row 0

theorem writeSlice_getD (row : List ℚ) (col : ℕ) (coord : List ℚ) (k : ℕ) :
    (writeSlice row col coord).getD k 0 =
      if k < row.length ∧ col ≤ k ∧ k < col + coord.length then
        coord.getD (k - col) (row.getD k 0)
      else row.getD k 0 := by
  simpa using wsAux_getD col coord row 0 k

theorem writeSlice_nil (col : ℕ) (coord : List ℚ) : writeSlice [] col coord = [] := rfl

theorem getSlice_length (row : List ℚ) (col w : ℕ) : (getSlice row col w).length = w := by
  simp [getSlice]

theorem getSlice_getD (row : List ℚ) (col w k : ℕ) (h : k < w) :
    (getSlice row col w).getD k 0 = row.getD (col + k) 0 := by
  unfold getSlice
  rw [List.getD_eq_getElem _ _ (by simpa using h)]
  simp

/-- Writing a row's own slice back into it is the identity. -/
theorem writeSlice_self (row : List ℚ) (col w : ℕ) :
    writeSlice row col (getSlice row col w) = row := by
  apply extGetD 0
  · exact writeSlice_length row col _
  · intro k hk
    rw [writeSlice_length] at hk
    rw [writeSlice_getD]
    by_cases h : k < row.length ∧ col ≤ k ∧ k < col + (getSlice row col w).length
    · obtain ⟨h1, h2, h3⟩ := h
      rw [if_pos ⟨h1, h2, h3⟩]
      rw [getSlice_length] at h3
      have hw : k - col < w := by omega
      rw [getD_irrel _ _ _ 0 (by rw [getSlice_length]; exact hw), getSlice_getD _ _ _ _ hw]
      congr 1
      omega
    · rw [if_neg h]

/-- A second write to the same slice overwrites the first. -/
theorem writeSlice_absorb (row : List ℚ) (col : ℕ) (c1 c2 : List ℚ)
    (hlen : c1.length = c2.length) :
    writeSlice (writeSlice row col c1) col c2 = writeSlice row col c2 := by
  apply extGetD 0
  · rw [writeSlice_length, writeSlice_length, writeSlice_length]
  · intro k _
    simp only [writeSlice_getD, writeSlice_length]
    split_ifs <;> first
      | rfl
      | (apply getD_irrel; omega)
      | (exfalso; omega)

/-- Reading back a freshly written slice gives the written coordinate. -/
theorem getSlice_writeSlice_self (row : List ℚ) (col w : ℕ) (coord : List ℚ)
    (hlen : coord.length = w) (hrow : col + w ≤ row.length) :
    getSlice (writeSlice row col coord) col w = coord := by
  apply extGetD 0
  · rw [getSlice_length, hlen]
  · intro k hk
    rw [getSlice_length] at hk
    rw [getSlice_getD _ _ _ _ hk, writeSlice_getD,
      if_pos ⟨by omega, by omega, by omega⟩]
    have h2 : col + k - col = k := by omega
    rw [h2]
    apply getD_irrel
    omega

/-- A write to a disjoint column range does not disturb a slice. -/
theorem getSlice_writeSlice_disjoint (row : List ℚ) (col w col2 : ℕ) (coord : List ℚ)
    (h : col2 + coord.length ≤ col ∨ col + w ≤ col2) :
    getSlice (writeSlice row col2 coord) col w = getSlice row col w := by
  apply extGetD 0
  · rw [getSlice_length, getSlice_length]
  · intro k hk
    rw [getSlice_length] at hk
    rw [getSlice_getD _ _ _ _ hk, getSlice_getD _ _ _ _ hk, writeSlice_getD, if_neg]
    intro hc
    obtain ⟨h1, h2, h3⟩ := hc
    omega

theorem sbAux_length (rs n col : ℕ) (coord : List ℚ) :
    ∀ (Y : Mat) (r0 : ℕ), (sbAux rs n col coord r0 Y).length = Y.length := by
  intro Y
  induction Y with
  | nil => intro r0; rfl
  | cons row rest ih => intro r0; simp [sbAux, ih]

theorem sbAux_getD (rs n col : ℕ) (coord : List ℚ) :
    ∀ (Y : Mat) (r0 r : ℕ),
      (sbAux rs n col coord r0 Y).getD r [] =
        if rs ≤ r0 + r ∧ r0 + r < rs + n then writeSlice (Y.getD r []) col coord
        else Y.getD r [] := by
  intro Y
  induction Y with
  | nil => intro r0 r; simp [sbAux, writeSlice_nil]
  | cons row rest ih =>
    intro r0 r
    cases r with
    | zero => simp [sbAux]
    | succ r =>
      simp only [sbAux, List.getD_cons_succ]
      rw [ih (r0 + 1) r]
      have h1 : r0 + 1 + r = r0 + (r + 1) := by omega
      rw [h1]

theorem setBlock_length (Y : Mat) (rs n col : ℕ) (coord : List ℚ) :
    (setBlock Y rs n col coord).length = Y.length := sbAux_length rs n col coord Y 0

theorem setBlock_getD (Y : Mat) (rs n col : ℕ) (coord : List ℚ) (r : ℕ) :
    (setBlock Y rs n col coord).getD r [] =
      if rs ≤ r ∧ r < rs + n then writeSlice (Y.getD r []) col coord else Y.getD r [] := by
  simpa using sbAux_getD rs n col coord Y 0 r

/-- A second block write to the same block and slice overwrites the first. -/
theorem setBlock_absorb (Y : Mat) (rs n col : ℕ) (c1 c2 : List ℚ)
    (hlen : c1.length = c2.length) :
    setBlock (setBlock Y rs n col c1) rs n col c2 = setBlock Y rs n col c2 := by
  apply extGetD ([] : List ℚ)
  · rw [setBlock_length, setBlock_length, setBlock_length]
  · intro r hr
    rw [setBlock_getD, setBlock_getD, setBlock_getD]
    by_cases h : rs ≤ r ∧ r < rs + n
    · rw [if_pos h, if_pos h, if_pos h, writeSlice_absorb _ _ _ _ hlen]
    · rw [if_neg h, if_neg h, if_neg h]

/-- Writing a block-constant block's own leading coordinate back into the
block is the identity. -/
theorem setBlock_restore (Y : Mat) (rs n col w : ℕ)
    (hconst : ∀ k, k < n →
      getSlice (Y.getD (rs + k) []) col w = getSlice (Y.getD rs []) col w) :
    setBlock Y rs n col (getSlice (Y.getD rs []) col w) = Y := by
  apply extGetD ([] : List ℚ)
  · rw [setBlock_length]
  · intro r hr
    rw [setBlock_getD]
    by_cases h : rs ≤ r ∧ r < rs + n
    · rw [if_pos h]
      have hk := hconst (r - rs) (by omega)
      have h2 : rs + (r - rs) = r := by omega
      rw [h2] at hk
      rw [← hk, writeSlice_self]
    · rw [if_neg h]

theorem setBlock_zero (Y : Mat) (rs col : ℕ) (coord : List ℚ) :
    setBlock Y rs 0 col coord = Y := by
  apply extGetD ([] : List ℚ)
  · rw [setBlock_length]
  · intro r hr
    rw [setBlock_getD, if_neg (by omega)]

/-! ## `x2fx` and `generate_coordinates` lemmas -/

theorem foldl_mul_range (g : ℕ → ℚ) :
    ∀ (n : ℕ) (a : ℚ),
      (List.range n).foldl (fun p j => p * g j) a = a * ∏ j ∈ Finset.range n, g j := by
  intro n
  induction n with
  | zero => intro a; simp
  | succ n ih =>
    intro a
    rw [List.range_succ, List.foldl_append]
    simp only [List.foldl_cons, List.foldl_nil, ih, Finset.prod_range_succ]
    ring

/-- The loop body of `x2fx` computes the product, over factors with nonzero
exponent, of the factor's value raised to that exponent (the exponent-one
shortcut multiplies by the plain value, which agrees with the first power). -/
theorem termValue_eq_prod (row : List ℚ) (term : List ℕ) :
    termValue row term =
      ∏ j ∈ Finset.range term.length,
        (if term.getD j 0 ≠ 0 then row.getD j 0 ^ term.getD j 0 else 1) := by
  unfold termValue
  have hbody : ∀ (p : ℚ) (j : ℕ), j ∈ List.range term.length →
      (if term.getD j 0 ≠ 0 then
        if term.getD j 0 = 1 then p * row.getD j 0 else p * row.getD j 0 ^ term.getD j 0
      else p)
      = p * (if term.getD j 0 ≠ 0 then row.getD j 0 ^ term.getD j 0 else 1) := by
    intro p j _
    by_cases h : term.getD j 0 ≠ 0
    · rw [if_pos h, if_pos h]
      by_cases h1 : term.getD j 0 = 1
      · rw [if_pos h1, h1, pow_one]
      · rw [if_neg h1]
    · rw [if_neg h, if_neg h, mul_one]
  rw [List.foldl_ext _ _ _ hbody, foldl_mul_range, one_mul]

theorem x2fx_length (Y : Mat) (model : NMat) : (x2fx Y model).length = Y.length := by
  simp [x2fx]

theorem x2fx_getD (Y : Mat) (model : NMat) (r : ℕ) (hr : r < Y.length) :
    (x2fx Y model).getD r [] = model.map (fun term => termValue (Y.getD r []) term) :=
  getD_map_lt _ Y r [] [] hr

/-! ## C4: `x2fx` computes the term-product model matrix -/

/-- C4: `x2fx` returns a matrix with one row per input row and one column
per model term; entry `(r, i)` is the product, over the factors `j` with
nonzero exponent in term `i`, of `Y[r, j]` raised to that exponent (the
source's exponent-one shortcut multiplies by the plain value, which equals
the first power); an all-zero term gives the constant-1 intercept column.
Purity and determinism hold because `x2fx` is a plain function of its
arguments. -/
theorem x2fx_spec (Y : Mat) (model : NMat) :
    (x2fx Y model).length = Y.length ∧
    (∀ r, r < Y.length → ((x2fx Y model).getD r []).length = model.length) ∧
    (∀ r i, r < Y.length → i < model.length →
      ((x2fx Y model).getD r []).getD i 0 =
        ∏ j ∈ Finset.range (model.getD i []).length,
          (if (model.getD i []).getD j 0 ≠ 0 then
            (Y.getD r []).getD j 0 ^ (model.getD i []).getD j 0
          else 1)) ∧
    (∀ r i, r < Y.length → i < model.length → (∀ e, e ∈ model.getD i [] → e = 0) →
      ((x2fx Y model).getD r []).getD i 0 = 1) := by
  refine ⟨x2fx_length Y model, ?_, ?_, ?_⟩
  · intro r hr
    rw [x2fx_getD Y model r hr]
    simp
  · intro r i hr hi
    rw [x2fx_getD Y model r hr, getD_map_lt _ _ _ [] 0 hi, termValue_eq_prod]
  · intro r i hr hi hall
    rw [x2fx_getD Y model r hr, getD_map_lt _ _ _ [] 0 hi, termValue_eq_prod]
    apply Finset.prod_eq_one
    intro j _
    have hz : (model.getD i []).getD j 0 = 0 := by
      by_cases hj : j < (model.getD i []).length
      · exact hall _ (by rw [List.getD_eq_getElem _ _ hj]; exact List.getElem_mem hj)
      · exact List.getD_eq_default _ _ (by omega)
    rw [hz]
    simp

/-- Witness for C4 at the spec's own examples: `Y = [[2,3]]` with the
two-main-effects model, and the intercept-only model. -/
theorem x2fx_spec_witness :
    ((x2fx [[2, 3]] [[1, 0], [0, 1]]).getD 0 []).getD 0 0 =
      (∏ j ∈ Finset.range (([[1, 0], [0, 1]] : NMat).getD 0 []).length,
        (if (([[1, 0], [0, 1]] : NMat).getD 0 []).getD j 0 ≠ 0 then
          (([[2, 3]] : Mat).getD 0 []).getD j 0 ^ (([[1, 0], [0, 1]] : NMat).getD 0 []).getD j 0
        else 1)) ∧
    ((x2fx [[2, 3]] [[0, 0]]).getD 0 []).getD 0 0 = 1 :=
  ⟨(x2fx_spec [[2, 3]] [[1, 0], [0, 1]]).2.2.1 0 0 (by decide) (by decide),
   (x2fx_spec [[2, 3]] [[0, 0]]).2.2.2 0 0 (by decide) (by decide) (by decide)⟩

/-! ## C5: `generate_coordinates` -/

/-- C5: `generate_coordinates` returns a supplied (nonempty, i.e. actually
supplied — the empty array is the source's "no override" default sentinel)
override verbatim; otherwise a continuous factor (`cat_lvl ≤ 1`) gets
exactly `[-1], [0], [1]` and a categorical factor with `L ≥ 2` levels gets
exactly `L` rows: the `(L-1) × (L-1)` identity followed by one all-`-1`
row; in particular `generate_coordinates 1 = [[-1],[0],[1]]` and
`generate_coordinates 3 = [[1,0],[0,1],[-1,-1]]`, in that order. -/
theorem generate_coordinates_spec (d : Mat) (L : ℕ) :
    (npSize d ≠ 0 → generate_coordinates L d = d) ∧
    (L ≤ 1 → generate_coordinates L emptyCoords = [[-1], [0], [1]]) ∧
    (2 ≤ L →
      generate_coordinates L emptyCoords =
        eyeRows (L - 1) ++ [List.replicate (L - 1) (-1 : ℚ)] ∧
      (generate_coordinates L emptyCoords).length = L) ∧
    generate_coordinates 1 emptyCoords = [[-1], [0], [1]] ∧
    generate_coordinates 3 emptyCoords = [[1, 0], [0, 1], [-1, -1]] := by
  refine ⟨?_, ?_, ?_, by decide, by decide⟩
  · intro h
    unfold generate_coordinates
    rw [if_neg h]
  · intro hL
    unfold generate_coordinates
    rw [if_pos (by decide), if_pos hL]
  · intro hL
    have hgen : generate_coordinates L emptyCoords =
        eyeRows (L - 1) ++ [List.replicate (L - 1) (-1 : ℚ)] := by
      unfold generate_coordinates
      rw [if_pos (by decide), if_neg (by omega)]
    refine ⟨hgen, ?_⟩
    rw [hgen, List.length_append]
    simp [eyeRows]
    omega

/-- Witness for C5: a nonempty override is returned verbatim; `cat_lvl = 0`
also counts as continuous; a 4-level categorical factor gets the 3×3
identity plus the all-`-1` row, 4 rows in total. -/
theorem generate_coordinates_spec_witness :
    generate_coordinates 3 [[5], [7]] = [[5], [7]] ∧
    generate_coordinates 0 emptyCoords = [[-1], [0], [1]] ∧
    generate_coordinates 4 emptyCoords = eyeRows 3 ++ [List.replicate 3 (-1 : ℚ)] ∧
    (generate_coordinates 4 emptyCoords).length = 4 :=
  ⟨(generate_coordinates_spec [[5], [7]] 3).1 (by decide),
   (generate_coordinates_spec emptyCoords 0).2.1 (by decide),
   ((generate_coordinates_spec emptyCoords 4).2.2.1 (by decide)).1,
   ((generate_coordinates_spec emptyCoords 4).2.2.1 (by decide)).2⟩

/-! ## C1: the one-shorter ratios branch is broken (code bug) -/

/-- C1: the claim (and the source's own docstring, doe.py lines 289-292)
says a ratios vector one shorter than `plot_sizes` is normalized by
prepending a leading 1, after which `doe` proceeds.  The code instead
reaches `np.concatenate(np.array([1]), ratios)` (doe.py line 323), whose
arguments are passed positionally — `np.array([1])` as the array sequence
and `ratios` as the `axis` — so numpy always raises and `doe` aborts before
computing the prestate.  The `ratios = None` default (all-ones) does work.
This theorem evaluates the embedded code at a failing input: with
`plot_sizes = [2,2]` and `ratios = [3]`, `doe` fails with the concatenate
error for every environment, while the `None` default yields `[1, 1]`. -/
theorem doe_ratio_one_shorter_bug :
    initRatios (some [3]) [2, 2] = .error .ratioConcat ∧
    initRatios none [2, 2] = .ok [1, 1] ∧
    doe (mkWitEnv noAccOpt) witModel [2, 2] witFs 1 1 none (some [3]) 3 =
      .error .ratioConcat := by
  refine ⟨by decide, by decide, ?_⟩
  have hIR : initRatios (some [3]) [2, 2] = .error .ratioConcat := by decide
  unfold doe
  rw [hIR]

/-! ## C10: structural ratio validation happens before any work -/

/-- C10: a ratios vector whose length differs from `plot_sizes` by other
than one-less fails the length assert, and one of matching length whose
first entry is not 1 fails the first-entry assert; in both cases `doe`
returns the structural error for every environment, every criterion and
every fuel — i.e. before the prestate is computed and before any restart
runs (the result does not depend on any of them). -/
theorem doe_ratio_validation {π σ : Type} (env : DoeEnv π σ) (model : NMat)
    (ps : List ℕ) (fs : List (ℕ × ℕ)) (n_tries max_it : ℕ)
    (dcs : Option (List Mat)) (r : List ℚ) (fuel : ℕ) :
    (r.length ≠ ps.length → r.length + 1 ≠ ps.length →
      doe env model ps fs n_tries max_it dcs (some r) fuel = .error .ratioSizeAssert) ∧
    (∀ r0 rt, r = r0 :: rt → r.length = ps.length → r0 ≠ 1 →
      doe env model ps fs n_tries max_it dcs (some r) fuel = .error .ratioFirstAssert) := by
  constructor
  · intro h1 h2
    have hIR : initRatios (some r) ps = .error .ratioSizeAssert := by
      simp only [initRatios]
      rw [if_neg h2, if_neg h1]
    unfold doe
    rw [hIR]
  · intro r0 rt hr hlen h0
    subst hr
    have hIR : initRatios (some (r0 :: rt)) ps = .error .ratioFirstAssert := by
      simp only [initRatios]
      rw [if_neg (by omega), if_pos hlen, if_neg h0]
    unfold doe
    rw [hIR]

/-- Witness for C10: with `plot_sizes = [2]`, the ratios `[1,2,3]`
(mismatched length) and `[5]` (matching length, first entry not 1) are both
rejected structurally. -/
theorem doe_ratio_validation_witness :
    doe (mkWitEnv noAccOpt) witModel witPs witFs 1 1 none (some [1, 2, 3]) 3 =
      .error .ratioSizeAssert ∧
    doe (mkWitEnv noAccOpt) witModel witPs witFs 1 1 none (some [5]) 3 =
      .error .ratioFirstAssert :=
  ⟨(doe_ratio_validation (mkWitEnv noAccOpt) witModel witPs witFs 1 1 none [1, 2, 3] 3).1
      (by decide) (by decide),
   (doe_ratio_validation (mkWitEnv noAccOpt) witModel witPs witFs 1 1 none [5] 3).2
      5 [] rfl (by decide) (by decide)⟩

/-! ## C3: a failing `update` call is a rejection, state unchanged -/

/-- C3: when the criterion's `update` raises on a candidate (the hypothesis
gives the raised error, numerical or otherwise), the candidate-loop body
returns normally with the candidate rejected: the criterion state `st`, the
model matrix `X`, the `updated` flag and the provisional best coordinate
are all exactly those from before the call (only the transient write of the
candidate into `Y` remains, to be overwritten by the block's final
write-back).  Because `candStep` is the body folded over the candidate list
by `blockScan`, returning normally means the block scan and the sweep
continue with the remaining candidates rather than aborting. -/
theorem candStep_numfail_reject {π σ : Type} (ctx : OptCtx π σ) (rs jmp col level grp : ℕ)
    (init_coord best new_coord : List ℚ) (s : SweepSt σ) (e : UpdErr)
    (hne : new_coord ≠ init_coord)
    (hupd : ctx.optim.update s.st s.X
      (x2fx (getRows (setBlock s.Y rs jmp col new_coord) rs jmp) ctx.model) level grp =
        .error e) :
    candStep ctx rs jmp col level grp init_coord (s, best) new_coord =
      ({ s with Y := setBlock s.Y rs jmp col new_coord }, best) := by
  unfold candStep
  rw [if_neg hne, hupd]

/-- Witness for C3: a concrete candidate evaluation whose `update` raises a
contract-violation error is rejected with the state retained. -/
theorem candStep_numfail_reject_witness :
    candStep witCtxErr 0 1 0 0 0 [-1] (witSweepSt, [-1]) [0] =
      ({ witSweepSt with Y := setBlock witSweepSt.Y 0 1 0 [0] }, [-1]) :=
  candStep_numfail_reject witCtxErr 0 1 0 0 0 [-1] [-1] [0] witSweepSt .contract
    (by decide) rfl

/-! ## C2: update failures of any kind are caught, not propagated -/

/-- C2 counterexample: the claim says a non-numerical failure raised by the
criterion's `update` (here, a contract-violation error raised on every
call) propagates out of the optimizer as fatal.  It does not: the source's
`except Exception` (doe.py line 222) catches it, every candidate is merely
rejected, and `optimize` returns successfully with the design unchanged. -/
theorem optimize_contract_err_not_fatal :
    optimize witY witModel witPs witFs errAccOpt () 3 none none = .ok (witY, 0) := by
  decide

/-! ## The sweep under a never-accepting criterion -/

/-- When the criterion never accepts, one candidate step leaves `X`, the
`updated` flag and the provisional best untouched, and only rewrites the
block of `Y` with the candidate. -/
theorem candStep_noacc {π σ : Type} (ctx : OptCtx π σ) (hNA : NAcc ctx.optim)
    (rs jmp col level grp : ℕ) (ic : List ℚ) (acc : SweepSt σ × List ℚ) (nc : List ℚ) :
    (candStep ctx rs jmp col level grp ic acc nc).1.X = acc.1.X ∧
    (candStep ctx rs jmp col level grp ic acc nc).1.updated = acc.1.updated ∧
    (candStep ctx rs jmp col level grp ic acc nc).2 = acc.2 ∧
    (candStep ctx rs jmp col level grp ic acc nc).1.Y = setBlock acc.1.Y rs jmp col nc := by
  unfold candStep
  by_cases hnc : nc = ic
  · rw [if_pos hnc]
    exact ⟨rfl, rfl, rfl, rfl⟩
  · rw [if_neg hnc]
    cases hu : ctx.optim.update acc.1.st acc.1.X
        (x2fx (getRows (setBlock acc.1.Y rs jmp col nc) rs jmp) ctx.model) level grp with
    | error e => exact ⟨rfl, rfl, rfl, rfl⟩
    | ok p =>
      obtain ⟨a, st2⟩ := p
      have ha : a = false := by
        have h := hNA acc.1.st acc.1.X
          (x2fx (getRows (setBlock acc.1.Y rs jmp col nc) rs jmp) ctx.model) level grp
        rw [hu] at h
        simpa [acceptOf] using h
      subst ha
      exact ⟨rfl, rfl, rfl, rfl⟩

/-- A block scan under a never-accepting criterion leaves the `updated`
flag unchanged. -/
theorem blockScan_noacc_updated {π σ : Type} (ctx : OptCtx π σ) (hNA : NAcc ctx.optim)
    (jmp col level : ℕ) (pc : Mat) (s : SweepSt σ) (grp : ℕ) :
    (blockScan ctx jmp col level pc s grp).updated = s.updated := by
  unfold blockScan
  have h := foldlRec (fun acc : SweepSt σ × List ℚ => acc.1.updated = s.updated)
    (candStep ctx (grp * jmp) jmp col level grp
      (getSlice (s.Y.getD (grp * jmp) []) col (pc.headD []).length))
    pc
    (s, getSlice (s.Y.getD (grp * jmp) []) col (pc.headD []).length)
    rfl
    (fun b a _ hb => by
      dsimp only
      rw [(candStep_noacc ctx hNA (grp * jmp) jmp col level grp _ b a).2.1]
      exact hb)
  simpa using h

/-- A factor scan under a never-accepting criterion leaves the `updated`
flag unchanged. -/
theorem factorScan_noacc_updated {π σ : Type} (ctx : OptCtx π σ) (hNA : NAcc ctx.optim)
    (s : SweepSt σ) (p : ℕ × (ℕ × ℕ)) :
    (factorScan ctx s p).updated = s.updated := by
  unfold factorScan
  exact foldlRec (fun s2 : SweepSt σ => s2.updated = s.updated) _ _ s rfl
    (fun b a _ hb => by
      dsimp only
      rw [blockScan_noacc_updated ctx hNA _ _ _ _ b a]
      exact hb)

/-- A sweep under a never-accepting criterion reports no update. -/
theorem sweep_noacc_updated {π σ : Type} (ctx : OptCtx π σ) (hNA : NAcc ctx.optim)
    (fs : List (ℕ × ℕ)) (s : SweepSt σ) :
    (sweep ctx fs s).updated = s.updated := by
  unfold sweep
  exact foldlRec (fun s2 : SweepSt σ => s2.updated = s.updated) _ _ s rfl
    (fun b a _ hb => by
      dsimp only
      rw [factorScan_noacc_updated ctx hNA b a]
      exact hb)

/-- Under a never-accepting criterion the iteration loop always terminates
successfully (no resynchronization ever runs). -/
theorem optIter_noacc {π σ : Type} (ctx : OptCtx π σ) (fs : List (ℕ × ℕ))
    (hNA : NAcc ctx.optim) :
    ∀ (n : ℕ) (Y X : Mat) (st : CState σ),
      ∃ Y2 X2 st2, optIter ctx fs n Y X st = .ok (Y2, X2, st2) := by
  intro n Y X st
  cases n with
  | zero => exact ⟨Y, X, st, rfl⟩
  | succ n =>
    have hu : (sweep ctx fs { Y := Y, X := X, st := st, updated := false }).updated = false :=
      sweep_noacc_updated ctx hNA fs _
    refine ⟨(sweep ctx fs { Y := Y, X := X, st := st, updated := false }).Y,
      (sweep ctx fs { Y := Y, X := X, st := st, updated := false }).X,
      (sweep ctx fs { Y := Y, X := X, st := st, updated := false }).st, ?_⟩
    simp [optIter, hu]

/-- C2 amended: a failure raised by the criterion's `update` — of any kind,
contract violations included — is caught inside the optimizer's candidate
loop and treated as a rejection; it never propagates out of `optimize`.
(Only failures outside `update`, such as the sweep-end resynchronization,
can make `optimize` fail — and that path needs an accepted update first.) -/
theorem optimize_update_err_no_propagation {π σ : Type} (optim : Optim π σ)
    (hE : ∀ st X Xi l g, ∃ e, optim.update st X Xi l g = .error e)
    (Y : Mat) (model : NMat) (ps : List ℕ) (fs : List (ℕ × ℕ)) (pre : π) (max_it : ℕ)
    (cso : Option (List ℕ)) (dcs : Option (List Mat)) :
    ∃ r, optimize Y model ps fs optim pre max_it cso dcs = .ok r := by
  have hNA : NAcc optim := by
    intro st X Xi l g
    obtain ⟨e, he⟩ := hE st X Xi l g
    simp [acceptOf, he]
  obtain ⟨Y2, X2, st2, h⟩ := optIter_noacc (mkOptCtx model ps fs optim cso dcs) fs hNA
    max_it Y (x2fx Y model) (optim.init pre Y (x2fx Y model))
  refine ⟨(Y2, optim.metric st2 Y2 X2), ?_⟩
  simp only [optimize]
  rw [h]

/-- Witness for the amended C2: the always-raising criterion makes
`optimize` return successfully. -/
theorem optimize_update_err_no_propagation_witness :
    ∃ r, optimize witY witModel witPs witFs errAccOpt () 3 none none = .ok r :=
  optimize_update_err_no_propagation errAccOpt (fun _ _ _ _ _ => ⟨.contract, rfl⟩)
    witY witModel witPs witFs () 3 none none

/-! ## C7: no improving candidate means one sweep and an unchanged design -/

/-- Decompose membership of `l.enum`. -/
theorem mem_enum_decomp {α : Type _} (l : List α) (d : α) (p : ℕ × α) (hp : p ∈ l.enum) :
    p.1 < l.length ∧ l.getD p.1 d = p.2 := by
  rw [List.mem_enum_iff_getElem?] at hp
  have hlt : p.1 < l.length := by
    by_contra hcon
    rw [List.getElem?_eq_none (by omega)] at hp
    exact Option.noConfusion hp
  refine ⟨hlt, ?_⟩
  rw [List.getD_eq_getElem _ _ hlt]
  have h2 := List.getElem?_eq_getElem hlt
  rw [h2] at hp
  exact Option.some.inj hp

/-- A block scan under a never-accepting criterion restores the block
exactly (given a block-constant design and width-uniform candidates) and
changes nothing else but the criterion state. -/
theorem blockScan_noacc_id {π σ : Type} (ctx : OptCtx π σ) (hNA : NAcc ctx.optim)
    (jmp col level : ℕ) (pc : Mat) (s : SweepSt σ) (grp : ℕ)
    (hU : ∀ cd, cd ∈ pc → cd.length = (pc.headD []).length)
    (hconst : ∀ k, k < jmp →
      getSlice (s.Y.getD (grp * jmp + k) []) col (pc.headD []).length =
        getSlice (s.Y.getD (grp * jmp) []) col (pc.headD []).length) :
    (blockScan ctx jmp col level pc s grp).Y = s.Y ∧
    (blockScan ctx jmp col level pc s grp).X = s.X ∧
    (blockScan ctx jmp col level pc s grp).updated = s.updated := by
  unfold blockScan
  have h := foldlRec
    (fun acc : SweepSt σ × List ℚ =>
      acc.1.X = s.X ∧ acc.1.updated = s.updated ∧
      acc.2 = getSlice (s.Y.getD (grp * jmp) []) col (pc.headD []).length ∧
      (acc.1.Y = s.Y ∨ ∃ cd, cd.length = (pc.headD []).length ∧
        acc.1.Y = setBlock s.Y (grp * jmp) jmp col cd))
    (candStep ctx (grp * jmp) jmp col level grp
      (getSlice (s.Y.getD (grp * jmp) []) col (pc.headD []).length))
    pc
    (s, getSlice (s.Y.getD (grp * jmp) []) col (pc.headD []).length)
    ⟨rfl, rfl, rfl, Or.inl rfl⟩
    (fun b a ha hb => by
      obtain ⟨hbX, hbu, hbc, hbY⟩ := hb
      have hc := candStep_noacc ctx hNA (grp * jmp) jmp col level grp
        (getSlice (s.Y.getD (grp * jmp) []) col (pc.headD []).length) b a
      refine ⟨hc.1.trans hbX, hc.2.1.trans hbu, hc.2.2.1.trans hbc, ?_⟩
      rcases hbY with hbY | ⟨cd, hcd, hbY⟩
      · right
        exact ⟨a, hU a ha, by rw [hc.2.2.2, hbY]⟩
      · right
        refine ⟨a, hU a ha, ?_⟩
        rw [hc.2.2.2, hbY, setBlock_absorb _ _ _ _ _ _ (by rw [hcd, hU a ha])])
  obtain ⟨hrX, hru, hrc, hrY⟩ := h
  have hic : (getSlice (s.Y.getD (grp * jmp) []) col (pc.headD []).length).length =
      (pc.headD []).length := getSlice_length _ _ _
  rcases hrY with hrY | ⟨cd, hcd, hrY⟩
  · refine ⟨?_, by simpa using hrX, by simpa using hru⟩
    simp only [hrc, hrY]
    exact setBlock_restore s.Y (grp * jmp) jmp col (pc.headD []).length hconst
  · refine ⟨?_, by simpa using hrX, by simpa using hru⟩
    simp only [hrc, hrY]
    rw [setBlock_absorb _ _ _ _ _ _ (by rw [hcd, hic])]
    exact setBlock_restore s.Y (grp * jmp) jmp col (pc.headD []).length hconst

/-- A factor scan under a never-accepting criterion leaves `Y`, `X` and the
flag unchanged. -/
theorem factorScan_noacc_id {π σ : Type} (ctx : OptCtx π σ) (hNA : NAcc ctx.optim)
    (s : SweepSt σ) (p : ℕ × (ℕ × ℕ))
    (hU : ∀ cd, cd ∈ ctx.pcs.getD p.1 [] → cd.length = ((ctx.pcs.getD p.1 []).headD []).length)
    (hconst : ∀ grp, grp < ctx.alphas.getD p.2.1 0 → ∀ k, k < ctx.betas.getD p.2.1 0 →
      getSlice (s.Y.getD (grp * ctx.betas.getD p.2.1 0 + k) []) (ctx.col_start.getD p.1 0)
          ((ctx.pcs.getD p.1 []).headD []).length =
        getSlice (s.Y.getD (grp * ctx.betas.getD p.2.1 0) []) (ctx.col_start.getD p.1 0)
          ((ctx.pcs.getD p.1 []).headD []).length) :
    (factorScan ctx s p).Y = s.Y ∧ (factorScan ctx s p).X = s.X ∧
    (factorScan ctx s p).updated = s.updated := by
  unfold factorScan
  refine foldlRec
    (fun s2 : SweepSt σ => s2.Y = s.Y ∧ s2.X = s.X ∧ s2.updated = s.updated)
    _ _ s ⟨rfl, rfl, rfl⟩ ?_
  intro b grp hgrp hb
  obtain ⟨hbY, hbX, hbu⟩ := hb
  have h := blockScan_noacc_id ctx hNA (ctx.betas.getD p.2.1 0) (ctx.col_start.getD p.1 0)
    p.2.1 (ctx.pcs.getD p.1 []) b grp hU
    (fun k hk => by rw [hbY]; exact hconst grp (List.mem_range.mp hgrp) k hk)
  exact ⟨h.1.trans hbY, h.2.1.trans hbX, h.2.2.trans hbu⟩

/-- A sweep under a never-accepting criterion leaves `Y`, `X` and the flag
unchanged (given uniform coordinate widths and a block-constant design). -/
theorem sweep_noacc_id {π σ : Type} (ctx : OptCtx π σ) (fs : List (ℕ × ℕ))
    (hNA : NAcc ctx.optim) (s : SweepSt σ)
    (hU : pcUniform ctx fs) (hC : blockConstant ctx fs s.Y) :
    (sweep ctx fs s).Y = s.Y ∧ (sweep ctx fs s).X = s.X ∧
    (sweep ctx fs s).updated = s.updated := by
  unfold sweep
  refine foldlRec
    (fun s2 : SweepSt σ => s2.Y = s.Y ∧ s2.X = s.X ∧ s2.updated = s.updated)
    _ _ s ⟨rfl, rfl, rfl⟩ ?_
  intro b p hp hb
  obtain ⟨hbY, hbX, hbu⟩ := hb
  obtain ⟨hlt, hgd⟩ := mem_enum_decomp fs (0, 0) p hp
  have hU2 := hU p.1 hlt
  have hC2 := hC p.1 hlt
  simp only [wOf, jmpOf, alphaOf, colOf, hgd] at hU2 hC2
  have h := factorScan_noacc_id ctx hNA b p hU2
    (fun grp hgrp k hk => by rw [hbY]; exact hC2 grp hgrp k hk)
  exact ⟨h.1.trans hbY, h.2.1.trans hbX, h.2.2.trans hbu⟩

/-- Under a never-accepting criterion the iteration loop stops after its
first sweep with the design and model matrix unchanged, for any positive
iteration cap. -/
theorem optIter_noacc_id {π σ : Type} (ctx : OptCtx π σ) (fs : List (ℕ × ℕ))
    (hNA : NAcc ctx.optim) (hU : pcUniform ctx fs) :
    ∀ (n : ℕ) (Y X : Mat) (st : CState σ), 1 ≤ n → blockConstant ctx fs Y →
      ∃ st2, optIter ctx fs n Y X st = .ok (Y, X, st2) ∧
        optIter ctx fs 1 Y X st = .ok (Y, X, st2) := by
  intro n Y X st hn hC
  cases n with
  | zero => omega
  | succ n =>
    have h := sweep_noacc_id ctx fs hNA { Y := Y, X := X, st := st, updated := false } hU hC
    refine ⟨(sweep ctx fs { Y := Y, X := X, st := st, updated := false }).st, ?_, ?_⟩
    · simp only [optIter]
      rw [h.2.2]
      simp [h.1, h.2.1]
    · simp only [optIter]
      rw [h.2.2]
      simp [h.1, h.2.1]

/-- C7: when the criterion's `update` never accepts any candidate,
`optimize` with any iteration cap `max_it ≥ 1` computes exactly what it
computes with cap 1 (one sweep reports no update and the loop stops), it
succeeds, and the returned design equals the input design: every block's
columns are restored to their initial coordinate.  Hypotheses: the
candidate sets are width-uniform (numpy arrays cannot be ragged) and the
input design is block-constant, as every design drawn by the initializer
is. -/
theorem optimize_no_improvement {π σ : Type} (Y : Mat) (model : NMat) (ps : List ℕ)
    (fs : List (ℕ × ℕ)) (optim : Optim π σ) (pre : π) (max_it : ℕ) (dcs : Option (List Mat))
    (hNA : NAcc optim) (hmax : 1 ≤ max_it)
    (hU : pcUniform (mkOptCtx model ps fs optim none dcs) fs)
    (hC : blockConstant (mkOptCtx model ps fs optim none dcs) fs Y) :
    optimize Y model ps fs optim pre max_it none dcs =
      optimize Y model ps fs optim pre 1 none dcs ∧
    ∃ m, optimize Y model ps fs optim pre max_it none dcs = .ok (Y, m) := by
  obtain ⟨st2, h1, h2⟩ := optIter_noacc_id (mkOptCtx model ps fs optim none dcs) fs hNA hU
    max_it Y (x2fx Y model) (optim.init pre Y (x2fx Y model)) hmax hC
  constructor
  · simp only [optimize]
    rw [h1, h2]
  · refine ⟨optim.metric st2 Y (x2fx Y model), ?_⟩
    simp only [optimize]
    rw [h1]

/-- Witness for C7: the never-accepting criterion on the concrete
block-constant design; cap 5 equals cap 1 and the design is returned
unchanged. -/
theorem optimize_no_improvement_witness :
    optimize witY witModel witPs witFs noAccOpt () 5 none none =
      optimize witY witModel witPs witFs noAccOpt () 1 none none ∧
    ∃ m, optimize witY witModel witPs witFs noAccOpt () 5 none none = .ok (witY, m) :=
  optimize_no_improvement witY witModel witPs witFs noAccOpt () 5 none
    (fun _ _ _ _ _ => rfl) (by decide) (by unfold pcUniform; decide)
    (by unfold blockConstant; decide)

/-! ## C6 and C8: the multi-start restart loop -/

/-- Completion invariant of the restart loop: when `doeLoop` terminates, it
has completed exactly `n_tries` restarts, its callback trace is
`[1, 2, ..., n_tries]` and one metric was recorded per restart. -/
theorem doeLoop_complete {π σ : Type} (c : LoopCtx π σ) :
    ∀ (f : ℕ) (s s2 : LoopSt), doeLoop c f s = some s2 →
      s.i ≤ c.n_tries → s.callbacks = (List.range s.i).map (· + 1) →
      s.metrics.length = s.i →
      s2.i = c.n_tries ∧ s2.callbacks = (List.range c.n_tries).map (· + 1) ∧
        s2.metrics.length = c.n_tries := by
  intro f
  induction f with
  | zero =>
    intro s s2 h hle hcb hm
    simp only [doeLoop] at h
    by_cases hi : s.i < c.n_tries
    · rw [if_pos hi] at h
      exact Option.noConfusion h
    · rw [if_neg hi] at h
      obtain rfl : s = s2 := Option.some.inj h
      have he : s.i = c.n_tries := by omega
      exact ⟨he, by rw [hcb, he], by rw [hm, he]⟩
  | succ f ih =>
    intro s s2 h hle hcb hm
    simp only [doeLoop] at h
    by_cases hi : s.i < c.n_tries
    · rw [if_pos hi] at h
      cases ha : attempt c s.draw with
      | error e =>
        rw [ha] at h
        exact ih _ s2 h hle hcb hm
      | ok p =>
        obtain ⟨Yo, m⟩ := p
        rw [ha] at h
        apply ih _ s2 h
        · simp only [succStep]
          omega
        · simp only [succStep, List.range_succ, List.map_append, hcb]
          rfl
        · simp only [succStep, List.length_append, hm, List.length_singleton]
    · rw [if_neg hi] at h
      obtain rfl : s = s2 := Option.some.inj h
      have he : s.i = c.n_tries := by omega
      exact ⟨he, by rw [hcb, he], by rw [hm, he]⟩

/-- C6: one step of the restart loop.  A numerically failing attempt is
discarded silently: no metric is recorded, the callback trace is untouched
and the completed count `i` does not advance — only the random draw counter
moves.  A successful attempt appends its metric, advances the count,
invokes the callback exactly once with the new completed count, and updates
the running best exactly when the metric is strictly greater.  When the
loop terminates from the initial state it has completed exactly `n_tries`
restarts with callback trace `[1, ..., n_tries]` and one recorded metric
per restart. -/
theorem doeLoop_restart_spec {π σ : Type} (c : LoopCtx π σ) (f : ℕ) (s : LoopSt) :
    (s.i < c.n_tries → ∀ e, attempt c s.draw = .error e →
      doeLoop c (f + 1) s = doeLoop c f { s with draw := s.draw + 1 }) ∧
    (s.i < c.n_tries → ∀ Yo m, attempt c s.draw = .ok (Yo, m) →
      doeLoop c (f + 1) s = doeLoop c f (succStep s Yo m) ∧
      (succStep s Yo m).metrics = s.metrics ++ [m] ∧
      (succStep s Yo m).callbacks = s.callbacks ++ [s.i + 1] ∧
      (succStep s Yo m).i = s.i + 1 ∧
      (succStep s Yo m).best_metric =
        (if betterThan m s.best_metric then some m else s.best_metric) ∧
      (succStep s Yo m).best_Y = (if betterThan m s.best_metric then Yo else s.best_Y) ∧
      (∀ b, betterThan m (some b) = decide (b < m))) ∧
    (∀ s2, doeLoop c f (initLoopSt c.plot_sizes c.factors) = some s2 →
      s2.i = c.n_tries ∧ s2.callbacks = (List.range c.n_tries).map (· + 1) ∧
      s2.metrics.length = c.n_tries) := by
  refine ⟨?_, ?_, ?_⟩
  · intro hi e ha
    simp only [doeLoop]
    rw [if_pos hi, ha]
  · intro hi Yo m ha
    refine ⟨?_, rfl, rfl, rfl, rfl, rfl, fun b => rfl⟩
    simp only [doeLoop]
    rw [if_pos hi, ha]
  · intro s2 h
    exact doeLoop_complete c f _ s2 h (by simp [initLoopSt]) (by simp [initLoopSt])
      (by simp [initLoopSt])

/-- Witness for C6: a failing attempt consumes no slot and records nothing;
a successful attempt appends metric and callback; the completed loop from
the initial state has trace `[1]` and one metric. -/
theorem doeLoop_restart_spec_witness :
    (doeLoop witCtxBad 1 (initLoopSt witPs witFs) =
      doeLoop witCtxBad 0 { initLoopSt witPs witFs with draw := 1 }) ∧
    (doeLoop witCtxOk 1 (initLoopSt witPs witFs) =
      doeLoop witCtxOk 0 (succStep (initLoopSt witPs witFs) witY 0)) ∧
    ((succStep (initLoopSt witPs witFs) witY 0).i = witCtxOk.n_tries ∧
      (succStep (initLoopSt witPs witFs) witY 0).callbacks =
        (List.range witCtxOk.n_tries).map (· + 1) ∧
      (succStep (initLoopSt witPs witFs) witY 0).metrics.length = witCtxOk.n_tries) :=
  ⟨(doeLoop_restart_spec witCtxBad 0 (initLoopSt witPs witFs)).1 (by decide) .singular
      (by decide),
   ((doeLoop_restart_spec witCtxOk 0 (initLoopSt witPs witFs)).2.1 (by decide) witY 0
      (by decide)).1,
   (doeLoop_restart_spec witCtxOk 1 (initLoopSt witPs witFs)).2.2
     (succStep (initLoopSt witPs witFs) witY 0) (by decide)⟩

/-- Appending a metric folds one `betterThan` step into the running
maximum. -/
theorem listMax_append (l : List ℚ) (m : ℚ) :
    listMax (l ++ [m]) = (if betterThan m (listMax l) then some m else listMax l) := by
  unfold listMax
  rw [List.foldl_append]
  rfl

/-- The strict-improvement fold computes an upper bound that is attained,
with any seed below it. -/
theorem listMax_fold_spec :
    ∀ (l : List ℚ) (acc : Option ℚ) (q : ℚ),
      l.foldl (fun b m => if betterThan m b then some m else b) acc = some q →
      (∀ x, x ∈ l → x ≤ q) ∧ (q ∈ l ∨ acc = some q) ∧ (∀ a, acc = some a → a ≤ q) := by
  intro l
  induction l with
  | nil =>
    intro acc q h
    refine ⟨by simp, Or.inr h, ?_⟩
    intro a ha
    rw [ha] at h
    obtain rfl : a = q := Option.some.inj h
    exact le_refl a
  | cons m t ih =>
    intro acc q h
    simp only [List.foldl_cons] at h
    obtain ⟨hub, hmem, hacc⟩ := ih _ q h
    have hm : m ≤ q := by
      by_cases hb : betterThan m acc
      · exact hacc m (by rw [if_pos hb])
      · cases acc with
        | none => exact absurd rfl hb
        | some b =>
          have hb2 : ¬b < m := by simpa [betterThan] using hb
          exact le_trans (le_of_not_lt hb2) (hacc b (by rw [if_neg hb]))
    refine ⟨?_, ?_, ?_⟩
    · intro x hx
      rcases List.mem_cons.mp hx with rfl | hx2
      · exact hm
      · exact hub x hx2
    · rcases hmem with hq | hq
      · exact Or.inl (List.mem_cons_of_mem m hq)
      · by_cases hb : betterThan m acc
        · rw [if_pos hb] at hq
          obtain rfl : m = q := Option.some.inj hq
          exact Or.inl (List.mem_cons_self m t)
        · rw [if_neg hb] at hq
          exact Or.inr hq
    · intro a ha
      subst ha
      by_cases hb : betterThan m (some a)
      · have hba : a < m := by simpa [betterThan] using hb
        exact le_trans (le_of_lt hba) hm
      · exact hacc a (by rw [if_neg hb])

/-- The fold yields `none` only from an empty list and seed. -/
theorem listMax_fold_none :
    ∀ (l : List ℚ) (acc : Option ℚ),
      l.foldl (fun b m => if betterThan m b then some m else b) acc = none →
      l = [] ∧ acc = none := by
  intro l
  induction l with
  | nil => intro acc h; exact ⟨rfl, h⟩
  | cons m t ih =>
    intro acc h
    simp only [List.foldl_cons] at h
    obtain ⟨ht, hf⟩ := ih _ h
    by_cases hb : betterThan m acc
    · rw [if_pos hb] at hf
      exact Option.noConfusion hf
    · rw [if_neg hb] at hf
      exfalso
      apply hb
      rw [hf]
      rfl

/-- Best-design invariant of the restart loop: the running `best_metric`
always equals the strict-improvement fold of the recorded metrics, and the
running best design is one that a past attempt produced with exactly that
metric. -/
theorem doeLoop_best {π σ : Type} (c : LoopCtx π σ) :
    ∀ (f : ℕ) (s s2 : LoopSt), doeLoop c f s = some s2 →
      s.best_metric = listMax s.metrics →
      (∀ m, s.best_metric = some m → ∃ d, d < s.draw ∧ attempt c d = .ok (s.best_Y, m)) →
      s2.best_metric = listMax s2.metrics ∧
      (∀ m, s2.best_metric = some m →
        ∃ d, d < s2.draw ∧ attempt c d = .ok (s2.best_Y, m)) := by
  intro f
  induction f with
  | zero =>
    intro s s2 h h1 h2
    simp only [doeLoop] at h
    by_cases hi : s.i < c.n_tries
    · rw [if_pos hi] at h
      exact Option.noConfusion h
    · rw [if_neg hi] at h
      obtain rfl : s = s2 := Option.some.inj h
      exact ⟨h1, h2⟩
  | succ f ih =>
    intro s s2 h h1 h2
    simp only [doeLoop] at h
    by_cases hi : s.i < c.n_tries
    · rw [if_pos hi] at h
      cases ha : attempt c s.draw with
      | error e =>
        rw [ha] at h
        apply ih _ s2 h h1
        intro m hm
        obtain ⟨d, hd, hat⟩ := h2 m hm
        exact ⟨d, Nat.lt_succ_of_lt hd, hat⟩
      | ok p =>
        obtain ⟨Yo, m⟩ := p
        rw [ha] at h
        apply ih _ s2 h
        · simp only [succStep, listMax_append, ← h1]
        · intro m2 hm2
          simp only [succStep] at hm2 ⊢
          by_cases hb : betterThan m s.best_metric
          · rw [if_pos hb] at hm2
            obtain rfl : m = m2 := Option.some.inj hm2
            exact ⟨s.draw, Nat.lt_succ_self s.draw, by rw [if_pos hb]; exact ha⟩
          · rw [if_neg hb] at hm2
            obtain ⟨d, hd, hat⟩ := h2 m2 hm2
            exact ⟨d, Nat.lt_succ_of_lt hd, by rw [if_neg hb]; exact hat⟩
    · rw [if_neg hi] at h
      obtain rfl : s = s2 := Option.some.inj h
      exact ⟨h1, h2⟩

/-- C8: when the restart loop completes from the initial state with at
least one requested restart, the metrics vector has one entry per requested
restart, the recorded best metric is the maximum of the metrics vector, and
the best design held by the loop (the pre-decoding best that `doe` then
decodes and returns) is a design some attempt produced with exactly that
maximal metric. -/
theorem doeLoop_best_spec {π σ : Type} (c : LoopCtx π σ) (f : ℕ) (s2 : LoopSt)
    (h : doeLoop c f (initLoopSt c.plot_sizes c.factors) = some s2)
    (hn : 1 ≤ c.n_tries) :
    s2.metrics.length = c.n_tries ∧
    ∃ m, s2.best_metric = some m ∧ m ∈ s2.metrics ∧ (∀ x, x ∈ s2.metrics → x ≤ m) ∧
      ∃ d, attempt c d = .ok (s2.best_Y, m) := by
  have hc := doeLoop_complete c f _ s2 h (by simp [initLoopSt]) (by simp [initLoopSt])
    (by simp [initLoopSt])
  have hb := doeLoop_best c f _ s2 h rfl
    (by intro m hm; simp [initLoopSt] at hm)
  refine ⟨hc.2.2, ?_⟩
  cases hbm : s2.best_metric with
  | none =>
    exfalso
    rw [hbm] at hb
    have hnil := listMax_fold_none s2.metrics none hb.1.symm
    rw [hnil.1] at hc
    have := hc.2.2
    simp at this
    omega
  | some m =>
    obtain ⟨d, _, hat⟩ := hb.2 m hbm
    have hfold : s2.metrics.foldl (fun b m => if betterThan m b then some m else b) none =
        some m := by
      rw [← listMax]
      rw [← hb.1, hbm]
    obtain ⟨hub, hmem, _⟩ := listMax_fold_spec s2.metrics none m hfold
    rcases hmem with hq | hq
    · exact ⟨m, rfl, hq, hub, d, hat⟩
    · exact Option.noConfusion hq

/-- Witness for C8: the completed one-restart loop records one metric, its
best metric is that metric, and the best design is the one attempt 0
produced with it. -/
theorem doeLoop_best_spec_witness :
    (succStep (initLoopSt witPs witFs) witY 0).metrics.length = witCtxOk.n_tries ∧
    ∃ m, (succStep (initLoopSt witPs witFs) witY 0).best_metric = some m ∧
      m ∈ (succStep (initLoopSt witPs witFs) witY 0).metrics ∧
      (∀ x, x ∈ (succStep (initLoopSt witPs witFs) witY 0).metrics → x ≤ m) ∧
      ∃ d, attempt witCtxOk d = .ok ((succStep (initLoopSt witPs witFs) witY 0).best_Y, m) :=
  doeLoop_best_spec witCtxOk 1 (succStep (initLoopSt witPs witFs) witY 0)
    (by decide) (by decide)

/-! ## C9: the search space is closed -/

/-- Any block write preserves the row-shape bound. -/
theorem ShapeOK_setBlock {π σ : Type} (ctx : OptCtx π σ) (fs : List (ℕ × ℕ)) (Y : Mat)
    (rs n col : ℕ) (cd : List ℚ) (hS : ShapeOK ctx fs Y) :
    ShapeOK ctx fs (setBlock Y rs n col cd) := by
  intro i hi r hr
  rw [setBlock_length] at hr
  rw [setBlock_getD]
  by_cases h : rs ≤ r ∧ r < rs + n
  · rw [if_pos h, writeSlice_length]
    exact hS i hi r hr
  · rw [if_neg h]
    exact hS i hi r hr

/-- Writing a member coordinate of factor `i0`'s set into one of factor
`i0`'s blocks preserves validity of the whole design: the written rows get
the member coordinate in factor `i0`'s columns, and every other factor's
columns are untouched because the column ranges are disjoint. -/
theorem ValidY_setBlock {π σ : Type} (ctx : OptCtx π σ) (fs : List (ℕ × ℕ)) (Y : Mat)
    (i0 grp0 : ℕ) (cd : List ℚ) (hi0 : i0 < fs.length)
    (hcd : cd ∈ ctx.pcs.getD i0 [])
    (hV : ValidY ctx fs Y) (hS : ShapeOK ctx fs Y)
    (hU : pcUniform ctx fs) (hD : colsDisjoint ctx fs) :
    ValidY ctx fs
      (setBlock Y (grp0 * jmpOf ctx fs i0) (jmpOf ctx fs i0) (colOf ctx i0) cd) := by
  intro i hi grp hgrp k hk
  rw [setBlock_getD]
  by_cases hin : grp0 * jmpOf ctx fs i0 ≤ grp * jmpOf ctx fs i + k ∧
      grp * jmpOf ctx fs i + k < grp0 * jmpOf ctx fs i0 + jmpOf ctx fs i0
  · rw [if_pos hin]
    by_cases hii : i = i0
    · subst hii
      by_cases hr : grp * jmpOf ctx fs i + k < Y.length
      · rw [getSlice_writeSlice_self _ _ _ _ (hU i hi cd hcd) (hS i hi _ hr)]
        exact hcd
      · have hnil : Y.getD (grp * jmpOf ctx fs i + k) [] = [] :=
          List.getD_eq_default _ _ (by omega)
        have hws : writeSlice (Y.getD (grp * jmpOf ctx fs i + k) []) (colOf ctx i) cd =
            Y.getD (grp * jmpOf ctx fs i + k) [] := by
          rw [hnil]
          rfl
        rw [hws]
        exact hV i hi grp hgrp k hk
    · rw [getSlice_writeSlice_disjoint]
      · exact hV i hi grp hgrp k hk
      · have hd2 := hD i0 hi0 i hi (fun he => hii he.symm)
        rw [hU i0 hi0 cd hcd]
        exact hd2
  · rw [if_neg hin]
    exact hV i hi grp hgrp k hk

/-- Every candidate step writes a coordinate into the scanned block of `Y`
and either keeps the provisional best or adopts the candidate. -/
theorem candStep_Y_best {π σ : Type} (ctx : OptCtx π σ) (rs jmp col level grp : ℕ)
    (ic : List ℚ) (acc : SweepSt σ × List ℚ) (nc : List ℚ) :
    (candStep ctx rs jmp col level grp ic acc nc).1.Y = setBlock acc.1.Y rs jmp col nc ∧
    ((candStep ctx rs jmp col level grp ic acc nc).2 = acc.2 ∨
      (candStep ctx rs jmp col level grp ic acc nc).2 = nc) := by
  unfold candStep
  by_cases hnc : nc = ic
  · rw [if_pos hnc]
    exact ⟨rfl, Or.inl rfl⟩
  · rw [if_neg hnc]
    cases hu : ctx.optim.update acc.1.st acc.1.X
        (x2fx (getRows (setBlock acc.1.Y rs jmp col nc) rs jmp) ctx.model) level grp with
    | error e => exact ⟨rfl, Or.inl rfl⟩
    | ok p =>
      obtain ⟨a, st2⟩ := p
      cases a with
      | true => exact ⟨rfl, Or.inr rfl⟩
      | false => exact ⟨rfl, Or.inl rfl⟩

/-- A block scan of factor `i0` preserves validity: every candidate written
during the scan is a member of the factor's coordinate set, and the final
write-back writes either a member or (for an empty block) nothing. -/
theorem blockScan_valid {π σ : Type} (ctx : OptCtx π σ) (fs : List (ℕ × ℕ))
    (i0 grp0 level : ℕ) (s : SweepSt σ) (hi0 : i0 < fs.length)
    (hgrp0 : grp0 < alphaOf ctx fs i0)
    (hU : pcUniform ctx fs) (hD : colsDisjoint ctx fs)
    (hV : ValidY ctx fs s.Y) (hS : ShapeOK ctx fs s.Y) :
    ValidY ctx fs
      (blockScan ctx (jmpOf ctx fs i0) (colOf ctx i0) level (ctx.pcs.getD i0 []) s grp0).Y ∧
    ShapeOK ctx fs
      (blockScan ctx (jmpOf ctx fs i0) (colOf ctx i0) level (ctx.pcs.getD i0 []) s grp0).Y := by
  set ic := getSlice (s.Y.getD (grp0 * jmpOf ctx fs i0) []) (colOf ctx i0) (wOf ctx i0)
    with hic
  set f := candStep ctx (grp0 * jmpOf ctx fs i0) (jmpOf ctx fs i0) (colOf ctx i0) level grp0 ic
    with hf
  have hicmem : jmpOf ctx fs i0 ≠ 0 → ic ∈ ctx.pcs.getD i0 [] := by
    intro hj
    rw [hic]
    have h0 := hV i0 hi0 grp0 hgrp0 0 (Nat.pos_of_ne_zero hj)
    simpa using h0
  have hfold := foldlRec
    (fun acc : SweepSt σ × List ℚ =>
      ValidY ctx fs acc.1.Y ∧ ShapeOK ctx fs acc.1.Y ∧
        (acc.2 ∈ ctx.pcs.getD i0 [] ∨ jmpOf ctx fs i0 = 0))
    f (ctx.pcs.getD i0 []) (s, ic)
    (by
      refine ⟨hV, hS, ?_⟩
      by_cases hj : jmpOf ctx fs i0 = 0
      · exact Or.inr hj
      · exact Or.inl (hicmem hj))
    (by
      intro b a ha hb
      obtain ⟨hbV, hbS, hbb⟩ := hb
      rw [hf]
      have hY := (candStep_Y_best ctx (grp0 * jmpOf ctx fs i0) (jmpOf ctx fs i0)
        (colOf ctx i0) level grp0 ic b a).1
      have hbest := (candStep_Y_best ctx (grp0 * jmpOf ctx fs i0) (jmpOf ctx fs i0)
        (colOf ctx i0) level grp0 ic b a).2
      refine ⟨?_, ?_, ?_⟩
      · rw [hY]
        exact ValidY_setBlock ctx fs b.1.Y i0 grp0 a hi0 ha hbV hbS hU hD
      · rw [hY]
        exact ShapeOK_setBlock ctx fs b.1.Y _ _ _ a hbS
      · rcases hbest with hb2 | hb2
        · rw [hb2]
          exact hbb
        · rw [hb2]
          exact Or.inl ha)
  set R := (ctx.pcs.getD i0 []).foldl f (s, ic) with hR
  obtain ⟨hrV, hrS, hrb⟩ := hfold
  have hkey : ValidY ctx fs
      (setBlock R.1.Y (grp0 * jmpOf ctx fs i0) (jmpOf ctx fs i0) (colOf ctx i0) R.2) ∧
      ShapeOK ctx fs
      (setBlock R.1.Y (grp0 * jmpOf ctx fs i0) (jmpOf ctx fs i0) (colOf ctx i0) R.2) := by
    rcases hrb with hmem | hj0
    · exact ⟨ValidY_setBlock ctx fs R.1.Y i0 grp0 R.2 hi0 hmem hrV hrS hU hD,
             ShapeOK_setBlock ctx fs R.1.Y _ _ _ R.2 hrS⟩
    · have hbz : setBlock R.1.Y (grp0 * jmpOf ctx fs i0) (jmpOf ctx fs i0)
          (colOf ctx i0) R.2 = R.1.Y := by
        rw [hj0]
        exact setBlock_zero _ _ _ _
      rw [hbz]
      exact ⟨hrV, hrS⟩
  exact hkey

/-- A factor scan preserves validity. -/
theorem factorScan_valid {π σ : Type} (ctx : OptCtx π σ) (fs : List (ℕ × ℕ))
    (hU : pcUniform ctx fs) (hD : colsDisjoint ctx fs) (s : SweepSt σ)
    (p : ℕ × (ℕ × ℕ)) (hp : p ∈ fs.enum)
    (hV : ValidY ctx fs s.Y) (hS : ShapeOK ctx fs s.Y) :
    ValidY ctx fs (factorScan ctx s p).Y ∧ ShapeOK ctx fs (factorScan ctx s p).Y := by
  obtain ⟨hlt, hgd⟩ := mem_enum_decomp fs (0, 0) p hp
  unfold factorScan
  have e1 : ctx.betas.getD p.2.1 0 = jmpOf ctx fs p.1 := by simp only [jmpOf, hgd]
  have e2 : ctx.alphas.getD p.2.1 0 = alphaOf ctx fs p.1 := by simp only [alphaOf, hgd]
  rw [e1, e2]
  refine foldlRec (fun s2 : SweepSt σ => ValidY ctx fs s2.Y ∧ ShapeOK ctx fs s2.Y)
    _ _ s ⟨hV, hS⟩ ?_
  intro b grp hgrp hb
  dsimp only
  exact blockScan_valid ctx fs p.1 grp p.2.1 b hlt (List.mem_range.mp hgrp) hU hD hb.1 hb.2

/-- A full sweep preserves validity. -/
theorem sweep_valid {π σ : Type} (ctx : OptCtx π σ) (fs : List (ℕ × ℕ))
    (hU : pcUniform ctx fs) (hD : colsDisjoint ctx fs) (s : SweepSt σ)
    (hV : ValidY ctx fs s.Y) (hS : ShapeOK ctx fs s.Y) :
    ValidY ctx fs (sweep ctx fs s).Y ∧ ShapeOK ctx fs (sweep ctx fs s).Y := by
  unfold sweep
  refine foldlRec (fun s2 : SweepSt σ => ValidY ctx fs s2.Y ∧ ShapeOK ctx fs s2.Y)
    _ _ s ⟨hV, hS⟩ ?_
  intro b p hp hb
  dsimp only
  exact factorScan_valid ctx fs hU hD b p hp hb.1 hb.2

/-- The iteration loop preserves validity (the resynchronization does not
touch `Y`). -/
theorem optIter_valid {π σ : Type} (ctx : OptCtx π σ) (fs : List (ℕ × ℕ))
    (hU : pcUniform ctx fs) (hD : colsDisjoint ctx fs) :
    ∀ (n : ℕ) (Y X : Mat) (st : CState σ) (Y2 X2 : Mat) (st2 : CState σ),
      optIter ctx fs n Y X st = .ok (Y2, X2, st2) →
      ValidY ctx fs Y → ShapeOK ctx fs Y →
      ValidY ctx fs Y2 ∧ ShapeOK ctx fs Y2 := by
  intro n
  induction n with
  | zero =>
    intro Y X st Y2 X2 st2 h hV hS
    simp only [optIter, Except.ok.injEq, Prod.mk.injEq] at h
    obtain ⟨h1, h2, h3⟩ := h
    subst h1
    exact ⟨hV, hS⟩
  | succ n ih =>
    intro Y X st Y2 X2 st2 h hV hS
    simp only [optIter] at h
    have hs := sweep_valid ctx fs hU hD { Y := Y, X := X, st := st, updated := false } hV hS
    cases hu : (sweep ctx fs { Y := Y, X := X, st := st, updated := false }).updated with
    | true =>
      rw [hu, if_pos rfl] at h
      cases hr : resyncState (sweep ctx fs { Y := Y, X := X, st := st, updated := false }).st
          (sweep ctx fs { Y := Y, X := X, st := st, updated := false }).X with
      | none =>
        rw [hr] at h
        exact Except.noConfusion h
      | some st3 =>
        rw [hr] at h
        exact ih _ _ _ _ _ _ h hs.1 hs.2
    | false =>
      rw [hu, if_neg Bool.false_ne_true] at h
      simp only [Except.ok.injEq, Prod.mk.injEq] at h
      obtain ⟨h1, h2, h3⟩ := h
      subst h1
      exact hs

/-- C9: closed search space.  If the initial design is a valid point of the
product of per-factor coordinate sets (with the shape conditions that hold
of every real design: rows long enough for every factor's column range,
width-uniform coordinate sets, disjoint per-factor column ranges), then
every write `optimize` performs keeps the design valid — each candidate
write is a member of the factor's set and each final write-back writes a
member or restores — so the returned design is still a valid point. -/
theorem optimize_closed_search {π σ : Type} (Y : Mat) (model : NMat) (ps : List ℕ)
    (fs : List (ℕ × ℕ)) (optim : Optim π σ) (pre : π) (max_it : ℕ)
    (dcs : Option (List Mat))
    (hU : pcUniform (mkOptCtx model ps fs optim none dcs) fs)
    (hD : colsDisjoint (mkOptCtx model ps fs optim none dcs) fs)
    (hV : ValidY (mkOptCtx model ps fs optim none dcs) fs Y)
    (hS : ShapeOK (mkOptCtx model ps fs optim none dcs) fs Y) :
    ∀ Y2 m, optimize Y model ps fs optim pre max_it none dcs = .ok (Y2, m) →
      ValidY (mkOptCtx model ps fs optim none dcs) fs Y2 := by
  intro Y2 m h
  simp only [optimize] at h
  cases hr : optIter (mkOptCtx model ps fs optim none dcs) fs max_it Y (x2fx Y model)
      (optim.init pre Y (x2fx Y model)) with
  | error e =>
    rw [hr] at h
    exact Except.noConfusion h
  | ok t =>
    obtain ⟨Y3, X3, st3⟩ := t
    rw [hr] at h
    simp only [Except.ok.injEq, Prod.mk.injEq] at h
    obtain ⟨h1, h2⟩ := h
    subst h1
    exact (optIter_valid (mkOptCtx model ps fs optim none dcs) fs hU hD
      max_it Y (x2fx Y model) (optim.init pre Y (x2fx Y model)) Y3 X3 st3 hr hV hS).1

/-- Witness for C9 at a concrete valid design: the design `optimize`
returns is still a valid point of the coordinate-set product. -/
theorem optimize_closed_search_witness :
    ValidY (mkOptCtx witModel witPs witFs noAccOpt none none) witFs witY :=
  optimize_closed_search witY witModel witPs witFs noAccOpt () 1 none
    (by unfold pcUniform; decide) (by unfold colsDisjoint; decide)
    (by unfold ValidY; decide) (by unfold ShapeOK; decide)
    witY 0 (by decide)

end OptimalSplitK
